import Mathlib

/-!
Verification of the memoria memory engine core against its specification.

The development shallowly embeds the Python sources of the repository:
* `src/mcp_memoria/core/memory_manager.py` (store / recall / get / update / delete),
* `src/mcp_memoria/embeddings/chunking.py` (the text chunker),
* `src/mcp_memoria/core/consolidation.py` (consolidate / forgetting / decay / boost),
* `src/mcp_memoria/core/graph_manager.py` (the relation-type heuristic),
* `src/mcp_memoria/core/rate_limiter.py` (the circuit breaker),
* `src/mcp_memoria/core/working_memory.py` (the LRU cache of memories).

Modelling conventions:
* UUIDs are an inductive type: `Uuid.v4 n` stands for the n-th freshly drawn
  uuid4, and `Uuid.v5chunk parent i` for `uuid5(namespace, f"{parent}__chunk_{i}")`.
  Constructor injectivity models the collision freedom of uuid4 / uuid5.
* Qdrant payloads are records holding exactly the fields the embedded code
  reads or writes; a `get` with a default is rendered with `Option`/defaults.
* Timestamps are integers (`datetime.now().isoformat()` becomes a logical clock);
  floats (scores, importance) are rationals.
* A qdrant collection is an association list of point id and payload; `scroll`
  with a filter returns the matching points capped at the requested limit,
  exactly as the client does.
* Asynchronous calls are sequentialised: every embedded operation is the
  sequence of store operations the Python coroutine performs.
-/

namespace Memoria

set_option maxRecDepth 8192

/-- Point / memory identifiers.  `v4 n` is a fresh uuid4, `v5chunk u i` the
deterministic uuid5 chunk id derived from parent uuid `u` and chunk index `i`
(function `_chunk_id` in memory_manager.py). -/
inductive Uuid where
  | v4 (n : Nat)
  | v5chunk (parent : Uuid) (i : Nat)
deriving DecidableEq, Repr

/-- The deterministic chunk id, `_chunk_id(parent_id, chunk_index)`. -/
def chunkUuid (parent : Uuid) (i : Nat) : Uuid := Uuid.v5chunk parent i

/-- A uuid5 chunk id never equals its own parent (no uuid collisions). -/
theorem chunkUuid_ne_parent (u : Uuid) : ∀ i, chunkUuid u i ≠ u := by
  induction u with
  | v4 n => intro i h; exact Uuid.noConfusion h
  | v5chunk p j ih =>
      intro i h
      injection h with h1 h2
      exact ih j h1

/-- Qdrant point payload, restricted to the fields the embedded code touches.
`to_payload` of a `MemoryItem` never writes the chunk fields, so they carry the
defaults the Python `payload.get(..., default)` calls produce. -/
structure Payload where
  content : String
  fullContent : Option String := none
  createdAt : Int
  updatedAt : Int
  accessedAt : Option Int := none
  accessCount : Nat := 0
  importance : ℚ := 1/2
  tags : List String := []
  isChunk : Bool := false
  parentId : Option Uuid := none
  chunkIndex : Nat := 0
  chunkCount : Nat := 1
  mergedFrom : List Uuid := []
  mergedAt : Option Int := none
deriving DecidableEq, Repr

/-- The `MemoryItem` pydantic model (memory_types.py), restricted to the fields
the embedded operations use. -/
structure MemoryItem where
  id : Uuid
  content : String
  createdAt : Int
  updatedAt : Int
  accessedAt : Int
  accessCount : Nat := 0
  importance : ℚ := 1/2
  tags : List String := []
deriving DecidableEq, Repr

/-- `MemoryItem.to_payload`: serialise a memory to a qdrant payload.  The chunk
fields are absent from the dict, i.e. carry their read-defaults here. -/
def MemoryItem.toPayload (m : MemoryItem) : Payload :=
  { content := m.content
    createdAt := m.createdAt
    updatedAt := m.updatedAt
    accessedAt := some m.accessedAt
    accessCount := m.accessCount
    importance := m.importance
    tags := m.tags }

/-- `MemoryItem.from_payload(id, payload)`: `content` prefers `full_content`;
a missing `accessed_at` parses to `datetime.now()` (`parse_datetime(None)`),
rendered by the `now` argument. -/
def MemoryItem.fromPayload (now : Int) (id : Uuid) (p : Payload) : MemoryItem :=
  { id := id
    content := p.fullContent.getD p.content
    createdAt := p.createdAt
    updatedAt := p.updatedAt
    accessedAt := p.accessedAt.getD now
    accessCount := p.accessCount
    importance := p.importance
    tags := p.tags }

/-! ## The vector store adapter

A collection is an association list of `(point id, payload)`.  The helpers
below model exactly the `QdrantStore` operations the embedded code calls. -/

/-- Association-list lookup (qdrant `retrieve` of a single id). -/
def plookup {α : Type} : List (Uuid × α) → Uuid → Option α
  | [], _ => none
  | (k, v) :: rest, i => if k = i then some v else plookup rest i

/-- Qdrant `upsert`: replace the point with this id, or append a new point. -/
def upsertPoint (coll : List (Uuid × Payload)) (id : Uuid) (pl : Payload) :
    List (Uuid × Payload) :=
  if coll.any (fun pr => pr.1 = id) then
    coll.map (fun pr => if pr.1 = id then (id, pl) else pr)
  else
    coll ++ [(id, pl)]

/-- Qdrant `upsert_batch`: upsert the points in order. -/
def upsertBatch (coll : List (Uuid × Payload)) (pts : List (Uuid × Payload)) :
    List (Uuid × Payload) :=
  pts.foldl (fun c pr => upsertPoint c pr.1 pr.2) coll

/-- Qdrant `scroll` with filter `{"parent_id": pid}` and a page limit: the
matching points of the collection, capped at `limit`.  The callers embedded
here issue a single page and ignore the returned offset. -/
def scrollByParent (coll : List (Uuid × Payload)) (pid : Uuid) (limit : Nat) :
    List (Uuid × Payload) :=
  (coll.filter (fun pr => pr.2.parentId = some pid)).take limit

/-- Qdrant `delete` by explicit point ids. -/
def deleteByIds (coll : List (Uuid × Payload)) (ids : List Uuid) :
    List (Uuid × Payload) :=
  coll.filter (fun pr => pr.1 ∉ ids)

/-- Qdrant `set_payload` (merge) rendered as a field update `f` on one point. -/
def updatePayloadAt (coll : List (Uuid × Payload)) (id : Uuid) (f : Payload → Payload) :
    List (Uuid × Payload) :=
  coll.map (fun pr => if pr.1 = id then (pr.1, f pr.2) else pr)

/-! ## Recall deduplication (memory_manager.py, `recall`, lines 290-317)

The search results collected over the queried collections arrive as a list of
scored points; `recall` groups them by `payload.get("parent_id", point.id)`,
keeps the best-scoring point per group, sorts by score descending and truncates
to `limit`. -/

/-- A scored search result (`SearchResult` of qdrant_store.py). -/
structure ScoredPoint where
  id : Uuid
  score : ℚ
  payload : Payload
deriving DecidableEq, Repr

/-- The dedup key of a point: `sr.payload.get("parent_id", sr.id)`. -/
def parentKey (sr : ScoredPoint) : Uuid := sr.payload.parentId.getD sr.id

/-- One step of building `best_by_parent`: dict insertion keeps first-insertion
order; an existing key is replaced in place only on a strictly higher score. -/
def bestByParentStep (acc : List (Uuid × ScoredPoint)) (sr : ScoredPoint) :
    List (Uuid × ScoredPoint) :=
  let k := parentKey sr
  match plookup acc k with
  | none => acc ++ [(k, sr)]
  | some cur =>
      if cur.score < sr.score then
        acc.map (fun pr => if pr.1 = k then (k, sr) else pr)
      else acc

/-- The `best_by_parent` dict after folding over all search results. -/
def bestByParent (rs : List ScoredPoint) : List (Uuid × ScoredPoint) :=
  rs.foldl bestByParentStep []

/-- Descending-score comparison used by `deduped_results.sort(reverse=True)`. -/
def scoreGE (a b : Uuid × ScoredPoint) : Prop := b.2.score ≤ a.2.score

instance : DecidableRel scoreGE := fun a b =>
  inferInstanceAs (Decidable (b.2.score ≤ a.2.score))

instance : IsTotal (Uuid × ScoredPoint) scoreGE :=
  ⟨fun a b => (le_total b.2.score a.2.score).elim Or.inl Or.inr⟩

instance : IsTrans (Uuid × ScoredPoint) scoreGE :=
  ⟨fun _ _ _ h1 h2 => le_trans h2 h1⟩

/-- The deduplicated, sorted, truncated recall ranking: the winning point per
logical memory, sorted by score descending, first `limit` entries. -/
def recallRank (rs : List ScoredPoint) (limit : Nat) : List (Uuid × ScoredPoint) :=
  (List.insertionSort scoreGE (bestByParent rs)).take limit

/-- The list of recall results as returned: the winning payload is turned into
a memory whose id is the dedup key (`MemoryItem.from_payload(parent_id, ...)`). -/
def recallResults (now : Int) (rs : List ScoredPoint) (limit : Nat) :
    List (MemoryItem × ℚ) :=
  (recallRank rs limit).map (fun pr => (MemoryItem.fromPayload now pr.1 pr.2.payload, pr.2.score))

/-! ### Association-list lemmas -/

theorem plookup_eq_none_iff {α : Type} (l : List (Uuid × α)) (k : Uuid) :
    plookup l k = none ↔ k ∉ l.map Prod.fst := by
  induction l with
  | nil => simp [plookup]
  | cons hd tl ih =>
      obtain ⟨a, b⟩ := hd
      by_cases h : a = k
      · subst h
        simp [plookup]
      · simp only [plookup, if_neg h, List.map_cons, List.mem_cons, ih]
        constructor
        · intro hk hor
          rcases hor with h1 | h2
          · exact h h1.symm
          · exact hk h2
        · intro hk h2
          exact hk (Or.inr h2)

theorem plookup_mem_of_eq_some {α : Type} {l : List (Uuid × α)} {k : Uuid} {v : α}
    (h : plookup l k = some v) : (k, v) ∈ l := by
  induction l with
  | nil => simp [plookup] at h
  | cons hd tl ih =>
      obtain ⟨a, b⟩ := hd
      by_cases hk : a = k
      · subst hk
        have hb : b = v := by simpa [plookup] using h
        subst hb
        exact List.mem_cons_self _ _
      · simp only [plookup, if_neg hk] at h
        exact List.mem_cons_of_mem _ (ih h)

theorem plookup_eq_some_of_mem_nodup {α : Type} {l : List (Uuid × α)} {k : Uuid} {v : α}
    (hnd : (l.map Prod.fst).Nodup) (hmem : (k, v) ∈ l) : plookup l k = some v := by
  induction l with
  | nil => simp at hmem
  | cons hd tl ih =>
      obtain ⟨a, b⟩ := hd
      simp only [List.map_cons, List.nodup_cons] at hnd
      rcases List.mem_cons.mp hmem with h | h
      · cases h
        simp [plookup]
      · have hk : a ≠ k := by
          intro he
          subst he
          exact hnd.1 (List.mem_map.mpr ⟨(a, v), h, rfl⟩)
        simp only [plookup, if_neg hk]
        exact ih hnd.2 h

theorem plookup_append_right {α : Type} (l1 l2 : List (Uuid × α)) (k : Uuid)
    (h : k ∉ l1.map Prod.fst) : plookup (l1 ++ l2) k = plookup l2 k := by
  induction l1 with
  | nil => simp
  | cons hd tl ih =>
      obtain ⟨a, b⟩ := hd
      simp only [List.map_cons, List.mem_cons] at h
      push_neg at h
      simp only [List.cons_append, plookup, if_neg (Ne.symm h.1)]
      exact ih h.2

theorem plookup_filter_ne {α : Type} (l : List (Uuid × α)) (k : Uuid) :
    plookup (l.filter (fun pr => pr.1 ≠ k)) k = none := by
  rw [plookup_eq_none_iff]
  intro hmem
  rcases List.mem_map.mp hmem with ⟨pr, hpr, heq⟩
  have := List.of_mem_filter hpr
  simp only [ne_eq, decide_not, Bool.not_eq_true', decide_eq_false_iff_not] at this
  exact this heq

/-! ### The C1 recall-dedup invariant -/

theorem bestByParentStep_none {acc : List (Uuid × ScoredPoint)} {sr : ScoredPoint}
    (h : plookup acc (parentKey sr) = none) :
    bestByParentStep acc sr = acc ++ [(parentKey sr, sr)] := by
  simp only [bestByParentStep, h]

theorem bestByParentStep_some {acc : List (Uuid × ScoredPoint)} {sr cur : ScoredPoint}
    (h : plookup acc (parentKey sr) = some cur) :
    bestByParentStep acc sr =
      if cur.score < sr.score then
        acc.map (fun pr => if pr.1 = parentKey sr then (parentKey sr, sr) else pr)
      else acc := by
  simp only [bestByParentStep, h]

/-- Invariant of the `best_by_parent` fold: keys are distinct, every entry is a
processed point keyed by its own parent key and score-maximal among processed
points with that key, and every processed point's key has an entry. -/
def BBPInv (processed : List ScoredPoint) (acc : List (Uuid × ScoredPoint)) : Prop :=
  (acc.map Prod.fst).Nodup ∧
  (∀ pr ∈ acc, pr.1 = parentKey pr.2 ∧ pr.2 ∈ processed ∧
    ∀ s ∈ processed, parentKey s = pr.1 → s.score ≤ pr.2.score) ∧
  (∀ s ∈ processed, ∃ pr ∈ acc, pr.1 = parentKey s)

theorem bestByParentStep_inv {processed : List ScoredPoint}
    {acc : List (Uuid × ScoredPoint)} (hinv : BBPInv processed acc)
    (sr : ScoredPoint) : BBPInv (processed ++ [sr]) (bestByParentStep acc sr) := by
  obtain ⟨hnd, hent, hcov⟩ := hinv
  cases hpl : plookup acc (parentKey sr) with
  | none =>
      rw [bestByParentStep_none hpl]
      have hknotin : parentKey sr ∉ acc.map Prod.fst :=
        (plookup_eq_none_iff acc (parentKey sr)).mp hpl
      refine ⟨?_, ?_, ?_⟩
      · simp only [List.map_append, List.map_cons, List.map_nil]
        refine List.Nodup.append hnd (List.nodup_singleton _) ?_
        intro x hx hx2
        simp only [List.mem_singleton] at hx2
        subst hx2
        exact hknotin hx
      · intro pr hpr
        rcases List.mem_append.mp hpr with h | h
        · obtain ⟨h1, h2, h3⟩ := hent pr h
          refine ⟨h1, List.mem_append_left _ h2, ?_⟩
          intro s hs hks
          rcases List.mem_append.mp hs with hs' | hs'
          · exact h3 s hs' hks
          · simp only [List.mem_singleton] at hs'
            subst hs'
            have : parentKey s ∈ acc.map Prod.fst := by
              rw [hks]
              exact List.mem_map.mpr ⟨pr, h, rfl⟩
            exact absurd this hknotin
        · simp only [List.mem_singleton] at h
          subst h
          refine ⟨rfl, List.mem_append_right _ (List.mem_singleton_self _), ?_⟩
          intro s hs hks
          rcases List.mem_append.mp hs with hs' | hs'
          · obtain ⟨pr', hpr', hkey⟩ := hcov s hs'
            have hks' : parentKey s = parentKey sr := hks
            have hmem2 : parentKey sr ∈ acc.map Prod.fst := by
              rw [← hks', ← hkey]
              exact List.mem_map.mpr ⟨pr', hpr', rfl⟩
            exact absurd hmem2 hknotin
          · simp only [List.mem_singleton] at hs'
            subst hs'
            exact le_refl _
      · intro s hs
        rcases List.mem_append.mp hs with h | h
        · obtain ⟨pr', hpr', hkey⟩ := hcov s h
          exact ⟨pr', List.mem_append_left _ hpr', hkey⟩
        · simp only [List.mem_singleton] at h
          subst h
          exact ⟨(parentKey s, s), List.mem_append_right _ (List.mem_singleton_self _), rfl⟩
  | some cur =>
      have hcurmem : (parentKey sr, cur) ∈ acc := plookup_mem_of_eq_some hpl
      have hmapfst : (acc.map (fun pr => if pr.1 = parentKey sr then (parentKey sr, sr) else pr)).map
          Prod.fst = acc.map Prod.fst := by
        rw [List.map_map]
        apply List.map_congr_left
        intro pr _
        by_cases h : pr.1 = parentKey sr
        · simp [h]
        · simp [h]
      rw [bestByParentStep_some hpl]
      by_cases hscore : cur.score < sr.score
      · rw [if_pos hscore]
        refine ⟨by rw [hmapfst]; exact hnd, ?_, ?_⟩
        · intro pr hpr
          rcases List.mem_map.mp hpr with ⟨pr0, hpr0, heq⟩
          by_cases hk : pr0.1 = parentKey sr
          · rw [if_pos hk] at heq
            subst heq
            have hpr0cur : pr0.2 = cur := by
              have h0 : plookup acc pr0.1 = some pr0.2 :=
                plookup_eq_some_of_mem_nodup hnd (by exact hpr0)
              rw [hk, hpl] at h0
              exact (Option.some_inj.mp h0).symm
            refine ⟨rfl, List.mem_append_right _ (List.mem_singleton_self _), ?_⟩
            intro s hs hks
            rcases List.mem_append.mp hs with hs' | hs'
            · obtain ⟨_, _, h3⟩ := hent pr0 hpr0
              have hb : s.score ≤ cur.score := by
                have := h3 s hs' (by rw [hks]; exact hk.symm)
                rw [hpr0cur] at this
                exact this
              exact le_of_lt (lt_of_le_of_lt hb hscore)
            · simp only [List.mem_singleton] at hs'
              subst hs'
              exact le_refl _
          · rw [if_neg hk] at heq
            subst heq
            obtain ⟨h1, h2, h3⟩ := hent pr0 hpr0
            refine ⟨h1, List.mem_append_left _ h2, ?_⟩
            intro s hs hks
            rcases List.mem_append.mp hs with hs' | hs'
            · exact h3 s hs' hks
            · simp only [List.mem_singleton] at hs'
              subst hs'
              exact absurd hks.symm hk
        · intro s hs
          rcases List.mem_append.mp hs with h | h
          · obtain ⟨pr', hpr', hkey⟩ := hcov s h
            refine ⟨if pr'.1 = parentKey sr then (parentKey sr, sr) else pr',
              List.mem_map.mpr ⟨pr', hpr', rfl⟩, ?_⟩
            by_cases hk : pr'.1 = parentKey sr
            · rw [if_pos hk]
              rw [← hk, hkey]
            · rw [if_neg hk]
              exact hkey
          · simp only [List.mem_singleton] at h
            subst h
            refine ⟨(parentKey s, s), ?_, rfl⟩
            refine List.mem_map.mpr ⟨(parentKey s, cur), hcurmem, ?_⟩
            simp
      · rw [if_neg hscore]
        refine ⟨hnd, ?_, ?_⟩
        · intro pr hpr
          obtain ⟨h1, h2, h3⟩ := hent pr hpr
          refine ⟨h1, List.mem_append_left _ h2, ?_⟩
          intro s hs hks
          rcases List.mem_append.mp hs with hs' | hs'
          · exact h3 s hs' hks
          · simp only [List.mem_singleton] at hs'
            subst hs'
            have hprcur : pr.2 = cur := by
              have h0 : plookup acc pr.1 = some pr.2 :=
                plookup_eq_some_of_mem_nodup hnd (by exact hpr)
              rw [← hks, hpl] at h0
              exact (Option.some_inj.mp h0).symm
            rw [hprcur]
            exact le_of_not_lt hscore
        · intro s hs
          rcases List.mem_append.mp hs with h | h
          · exact hcov s h
          · simp only [List.mem_singleton] at h
            subst h
            exact ⟨(parentKey s, cur), hcurmem, rfl⟩

theorem bestByParent_fold_inv (l : List ScoredPoint) :
    ∀ (processed : List ScoredPoint) (acc : List (Uuid × ScoredPoint)),
      BBPInv processed acc → BBPInv (processed ++ l) (l.foldl bestByParentStep acc) := by
  induction l with
  | nil => intro p a h; simpa using h
  | cons hd tl ih =>
      intro p a h
      have h1 := bestByParentStep_inv h hd
      have h2 := ih (p ++ [hd]) (bestByParentStep a hd) h1
      simpa [List.append_assoc] using h2

theorem bestByParent_inv (rs : List ScoredPoint) : BBPInv rs (bestByParent rs) := by
  have h0 : BBPInv [] [] := ⟨List.nodup_nil, by simp, by simp⟩
  have := bestByParent_fold_inv rs [] [] h0
  simpa [bestByParent] using this

/-- The C1 property: at most `limit` results, pairwise-distinct dedup keys,
each result is an input point that is score-maximal for its key, and results
are sorted by score in descending order. -/
def RecallDedupOK (rs : List ScoredPoint) (limit : Nat) : Prop :=
  (recallRank rs limit).length ≤ limit ∧
  ((recallRank rs limit).map Prod.fst).Nodup ∧
  (recallRank rs limit).Pairwise scoreGE ∧
  ∀ e ∈ recallRank rs limit,
    e.2 ∈ rs ∧ e.1 = parentKey e.2 ∧ ∀ s ∈ rs, parentKey s = e.1 → s.score ≤ e.2.score

/-- C1.  For every recall call the returned list has at most `limit` results,
no two results share the dedup key `payload.parent_id ?? point.id`, each
logical memory is represented by its highest-scoring point, and the results
are sorted by score in descending order (memory_manager.py lines 290-317). -/
theorem recall_dedup_spec (rs : List ScoredPoint) (limit : Nat) :
    RecallDedupOK rs limit := by
  obtain ⟨hnd, hent, _⟩ := bestByParent_inv rs
  have hperm : List.Perm (List.insertionSort scoreGE (bestByParent rs)) (bestByParent rs) :=
    List.perm_insertionSort scoreGE (bestByParent rs)
  refine ⟨?_, ?_, ?_, ?_⟩
  · exact List.length_take_le _ _
  · have hnd2 : ((List.insertionSort scoreGE (bestByParent rs)).map Prod.fst).Nodup :=
      ((hperm.map Prod.fst).nodup_iff).mpr hnd
    have heq : (recallRank rs limit).map Prod.fst =
        ((List.insertionSort scoreGE (bestByParent rs)).map Prod.fst).take limit := by
      rw [recallRank, List.map_take]
    rw [heq]
    exact List.Nodup.sublist (List.take_sublist _ _) hnd2
  · have hsorted : List.Sorted scoreGE (List.insertionSort scoreGE (bestByParent rs)) :=
      List.sorted_insertionSort scoreGE (bestByParent rs)
    exact List.Pairwise.sublist (List.take_sublist _ _) hsorted
  · intro e he
    have hmem : e ∈ bestByParent rs :=
      hperm.mem_iff.mp (List.mem_of_mem_take he)
    obtain ⟨h1, h2, h3⟩ := hent e hmem
    exact ⟨h2, h1, fun s hs hks => h3 s hs hks⟩

/-- Concrete search-result list for the C1 witness: two chunks of one logical
memory plus an unrelated point. -/
def c1wPoints : List ScoredPoint :=
  [ { id := Uuid.v5chunk (Uuid.v4 0) 0, score := 3/10,
      payload := { content := "a", createdAt := 0, updatedAt := 0,
                   isChunk := true, parentId := some (Uuid.v4 0) } },
    { id := Uuid.v5chunk (Uuid.v4 0) 1, score := 7/10,
      payload := { content := "b", createdAt := 0, updatedAt := 0,
                   isChunk := true, parentId := some (Uuid.v4 0) } },
    { id := Uuid.v4 1, score := 1/2,
      payload := { content := "c", createdAt := 0, updatedAt := 0,
                   parentId := some (Uuid.v4 1) } } ]

/-- Witness for C1 at a concrete input. -/
theorem recall_dedup_witness : RecallDedupOK c1wPoints 2 :=
  recall_dedup_spec c1wPoints 2

/-! ## The text chunker (chunking.py)

`TextChunker.chunk` normalises whitespace and splits the text on the first
separator that yields usable chunks, with an overlap tail between consecutive
chunks; chunks whose stripped text is shorter than `min_chunk_size` are
discarded.  The hard-split fallback loops forever whenever `chunk_overlap > 0`
(its cursor `start = end - overlap` can never reach the text length), so the
embedding returns `none` for runs the Python generator never finishes; the
fuel `length + 1` is enough for every terminating run because a terminating
run advances the cursor by at least one character per iteration. -/

/-- A chunk of text with offsets (`TextChunk` of chunking.py). -/
structure TextChunk where
  text : String
  startIdx : Nat
  endIdx : Nat
  chunkIndex : Nat := 0
deriving DecidableEq, Repr

/-- The chunker configuration (`ChunkingConfig`), with the source defaults. -/
structure ChunkingConfig where
  chunkSize : Nat := 500
  chunkOverlap : Nat := 50
  separators : List String := ["\n\n", "\n", ". ", "! ", "? ", "; ", ", ", " "]
  minChunkSize : Nat := 50
  preserveSentences : Bool := true
deriving Repr

/-- Python `str.isspace` over the ASCII whitespace characters. -/
def pyIsSpace (c : Char) : Bool :=
  c = ' ' ∨ c = '\t' ∨ c = '\n' ∨ c = '\r' ∨ c = '\x0b' ∨ c = '\x0c'

/-- Python `str.strip()`. -/
def pyStrip (s : String) : String :=
  String.mk (((s.toList.dropWhile pyIsSpace).reverse.dropWhile pyIsSpace).reverse)

/-- Regex `" +" -> " "`: drop every space that follows a space. -/
def collapseSpacesGo : Bool → List Char → List Char
  | _, [] => []
  | prevSpace, c :: rest =>
      if c = ' ' then
        if prevSpace then collapseSpacesGo true rest
        else ' ' :: collapseSpacesGo true rest
      else c :: collapseSpacesGo false rest

/-- Regex `"\n{3,}" -> "\n\n"`: cap every newline run at two. -/
def collapseNewlinesGo : Nat → List Char → List Char
  | pending, [] => if pending ≥ 3 then ['\n', '\n'] else List.replicate pending '\n'
  | pending, c :: rest =>
      if c = '\n' then collapseNewlinesGo (pending + 1) rest
      else (if pending ≥ 3 then ['\n', '\n'] else List.replicate pending '\n') ++
        c :: collapseNewlinesGo 0 rest

/-- `_normalize_whitespace`: collapse space runs, cap newline runs, strip. -/
def normalizeWhitespace (s : String) : String :=
  pyStrip (String.mk (collapseNewlinesGo 0 (collapseSpacesGo false s.toList)))

/-- `_get_overlap`: the overlap tail of a finished chunk.  Note the Python
slice `text[-overlap:]` is the whole string when `overlap = 0`. -/
def getOverlap (cfg : ChunkingConfig) (text : String) : String :=
  if text.length ≤ cfg.chunkOverlap then ""
  else
    let ov := if cfg.chunkOverlap = 0 then text
              else text.drop (text.length - cfg.chunkOverlap)
    if cfg.preserveSentences then
      match ov.toList.findIdx? (fun c => c = ' ') with
      | some k => if k > 0 then ov.drop (k + 1) else ov
      | none => ov
    else ov

/-- `_split_by_separator`: split on `sep`, greedily merge parts up to
`chunk_size`, start each next chunk with the overlap tail; `none` when the
split is not effective or every piece was discarded. -/
def splitBySeparator (cfg : ChunkingConfig) (sep : String) (text : String)
    (startOffset : Nat) : Option (List TextChunk) :=
  let parts := text.splitOn sep
  if parts.length ≤ 1 then none
  else
    let n := parts.length
    let fin := parts.enum.foldl
      (fun (st : String × Nat × List TextChunk) (ip : Nat × String) =>
        let current := st.1
        let curStart := st.2.1
        let chunks := st.2.2
        let pws := if ip.1 < n - 1 then ip.2 ++ sep else ip.2
        if current = "" then (pws, curStart, chunks)
        else if current.length + pws.length ≤ cfg.chunkSize then
          (current ++ pws, curStart, chunks)
        else
          let chunks2 := if (pyStrip current).length ≥ cfg.minChunkSize then
              chunks ++ [{ text := pyStrip current, startIdx := curStart,
                           endIdx := curStart + current.length }]
            else chunks
          let ovT := getOverlap cfg current
          (ovT ++ pws, curStart + current.length - ovT.length, chunks2))
      ("", startOffset, [])
    let current := fin.1
    let curStart := fin.2.1
    let chunks := fin.2.2
    let chunks2 := if pyStrip current ≠ "" ∧ (pyStrip current).length ≥ cfg.minChunkSize then
        chunks ++ [{ text := pyStrip current, startIdx := curStart,
                     endIdx := curStart + current.length }]
      else chunks
    if chunks2 = [] then none else some chunks2

/-- `_hard_split` with fuel; `none` is a run the Python generator never
finishes (which happens whenever `chunk_overlap > 0` or `chunk_size = 0`). -/
def hardSplitGo (cfg : ChunkingConfig) (text : String) (off : Nat) :
    Nat → Nat → Option (List TextChunk)
  | 0, start => if start < text.length then none else some []
  | fuel + 1, start =>
      if start < text.length then
        let endp := min (start + cfg.chunkSize) text.length
        let piece := (text.drop start).take (endp - start)
        match hardSplitGo cfg text off fuel (endp - cfg.chunkOverlap) with
        | none => none
        | some rest =>
            some ((if (pyStrip piece).length ≥ cfg.minChunkSize then
                [{ text := pyStrip piece, startIdx := off + start, endIdx := off + endp }]
              else []) ++ rest)
      else some []

/-- `_hard_split` entry point. -/
def hardSplit (cfg : ChunkingConfig) (text : String) (off : Nat) :
    Option (List TextChunk) :=
  hardSplitGo cfg text off (text.length + 1) 0

/-- `_recursive_chunk`: emit the whole text if it fits, else use the first
separator that yields chunks, else hard-split. -/
def recursiveChunk (cfg : ChunkingConfig) (text : String) (startOffset : Nat) :
    Option (List TextChunk) :=
  if text.length ≤ cfg.chunkSize then
    some (if text.length ≥ cfg.minChunkSize then
        [{ text := pyStrip text, startIdx := startOffset, endIdx := startOffset + text.length }]
      else [])
  else
    go cfg.separators
where
  go : List String → Option (List TextChunk)
    | [] => hardSplit cfg text startOffset
    | sep :: rest =>
        match splitBySeparator cfg sep text startOffset with
        | some cl => some cl
        | none => go rest

/-- `TextChunker.chunk`: normalise, split, then assign dense chunk indices. -/
def TextChunker.chunk (cfg : ChunkingConfig) (text : String) : Option (List TextChunk) :=
  if text = "" ∨ pyStrip text = "" then some []
  else
    (recursiveChunk cfg (normalizeWhitespace text) 0).map
      (fun cl => cl.enum.map (fun ip => { ip.2 with chunkIndex := ip.1 }))

theorem chunker_check_whitespace :
    TextChunker.chunk { chunkSize := 5, chunkOverlap := 0 } "ab    " = some [] := by decide

theorem chunker_check_short :
    TextChunker.chunk { chunkSize := 5, chunkOverlap := 0, minChunkSize := 2 } "abc" =
    some [{ text := "abc", startIdx := 0, endIdx := 3 }] := by decide


/-! ## The memory lifecycle manager (memory_manager.py)

State of the manager: the vector collection of the memory kind at hand, the
working-memory LRU cache, a logical clock standing for `datetime.now()`, and
the counter from which fresh uuid4 memory ids are drawn.  The session context
and action history are disjoint from every claim and are not modelled. -/

/-- Manager settings used by the embedded operations. -/
structure MMConfig where
  chunkSize : Nat := 500
  chunkOverlap : Nat := 50
deriving Repr

/-- The `ChunkingConfig` the manager builds (`_init_chunker`): only size and
overlap are passed, the other fields keep their defaults. -/
def MMConfig.chunkCfg (cfg : MMConfig) : ChunkingConfig :=
  { chunkSize := cfg.chunkSize, chunkOverlap := cfg.chunkOverlap }

/-- Manager state. -/
structure MMState where
  coll : List (Uuid × Payload)
  cache : List (Uuid × MemoryItem)
  clock : Int
  nextMemId : Nat
deriving DecidableEq, Repr

/-- `WorkingMemory` is created with `max_size=100`. -/
def cacheMaxSize : Nat := 100

/-- `LRUCache.put`: move-to-end assignment, then evict from the front while
over capacity. -/
def lruPut (cache : List (Uuid × MemoryItem)) (k : Uuid) (v : MemoryItem) :
    List (Uuid × MemoryItem) :=
  let c := (cache.filter (fun pr => pr.1 ≠ k)) ++ [(k, v)]
  c.drop (c.length - cacheMaxSize)

/-- `WorkingMemory.invalidate_cache`. -/
def cacheInvalidate (cache : List (Uuid × MemoryItem)) (k : Uuid) :
    List (Uuid × MemoryItem) :=
  cache.filter (fun pr => pr.1 ≠ k)

/-- The payload of one stored chunk (store / update re-chunk path): the base
payload plus the chunk fields. -/
def chunkPayload (base : Payload) (fullText : String) (parent : Uuid)
    (chunkCount : Nat) (ch : TextChunk) : Payload :=
  { base with content := ch.text, fullContent := some fullText, isChunk := true,
              parentId := some parent, chunkIndex := ch.chunkIndex,
              chunkCount := chunkCount }

/-- `create_memory`: a fresh uuid4 and `created_at = updated_at = accessed_at
= now` (memory_types.py). -/
def createMemoryAt (st : MMState) (content : String) (tags : List String)
    (importance : ℚ) : MemoryItem :=
  { id := Uuid.v4 st.nextMemId, content := content, createdAt := st.clock,
    updatedAt := st.clock, accessedAt := st.clock, accessCount := 0,
    importance := importance, tags := tags }

/-- `MemoryManager.store`: chunk and batch-upsert when the content exceeds
`chunk_size`, else upsert a single point under the memory id; then cache the
memory in working memory.  `none` when the chunker diverges. -/
def MemoryManager.store (cfg : MMConfig) (st : MMState) (content : String)
    (tags : List String) (importance : ℚ) : Option (MemoryItem × MMState) :=
  let mem : MemoryItem := createMemoryAt st content tags importance
  if content.length > cfg.chunkSize then
    match TextChunker.chunk cfg.chunkCfg content with
    | none => none
    | some chunks =>
        let pts := chunks.map (fun ch =>
          (chunkUuid mem.id ch.chunkIndex, chunkPayload mem.toPayload content mem.id chunks.length ch))
        some (mem,
          { coll := upsertBatch st.coll pts
            cache := lruPut st.cache mem.id mem
            clock := st.clock + 1
            nextMemId := st.nextMemId + 1 })
  else
    let pl := { mem.toPayload with isChunk := false, parentId := some mem.id }
    some (mem,
      { coll := upsertPoint st.coll mem.id pl
        cache := lruPut st.cache mem.id mem
        clock := st.clock + 1
        nextMemId := st.nextMemId + 1 })

/-- `MemoryManager.get`: working-memory cache first (the cached dump parses
back through `from_payload` under the requested id), then the direct point,
then the deterministic chunk-0 point; the memory id is the payload's
`parent_id` defaulting to the point id looked up. -/
def MemoryManager.get (st : MMState) (mid : Uuid) : Option MemoryItem :=
  match plookup st.cache mid with
  | some item => some { item with id := mid }
  | none =>
      match plookup st.coll mid with
      | some p => some (MemoryItem.fromPayload st.clock (p.parentId.getD mid) p)
      | none =>
          match plookup st.coll (chunkUuid mid 0) with
          | some p => some (MemoryItem.fromPayload st.clock (p.parentId.getD (chunkUuid mid 0)) p)
          | none => none

/-- `MemoryManager._get_memory_point_ids`: the direct id when present, plus
the ids found by a single `scroll(limit=1000)` on the `parent_id` filter. -/
def getMemoryPointIds (st : MMState) (mid : Uuid) : List Uuid :=
  let direct := if (plookup st.coll mid).isSome then [mid] else []
  (scrollByParent st.coll mid 1000).foldl
    (fun ids cr => if cr.1 ∈ ids then ids else ids ++ [cr.1]) direct

/-- `MemoryManager._delete_memory_points`: delete every point id found. -/
def deleteMemoryPoints (st : MMState) (mid : Uuid) : Nat × MMState :=
  let pids := getMemoryPointIds st mid
  (pids.length, { st with coll := deleteByIds st.coll pids })

/-- `MemoryManager.delete(memory_ids=...)`: cascade-delete each id and
invalidate its cache entry; count at least one per requested id. -/
def MemoryManager.delete (st : MMState) (mids : List Uuid) : Nat × MMState :=
  mids.foldl
    (fun acc mid =>
      let dres := deleteMemoryPoints acc.2 mid
      (acc.1 + max dres.1 1, { dres.2 with cache := cacheInvalidate dres.2.cache mid }))
    (0, st)

/-- `MemoryManager.update`: on a changed non-empty content, delete the point
set, re-store under a temporary id, delete the temporary points, re-create the
points under the original id with the original `created_at`, invalidate the
cache and re-fetch.  Otherwise merge the metadata fields into every point of
the point set.  `none` when the chunker diverges. -/
def updateMetadataPath (st : MMState) (mid : Uuid)
    (tags : Option (List String)) (importance : Option ℚ) :
    Option (MMState × Option MemoryItem) :=
  let upd : Payload → Payload := fun p =>
    let p1 := { p with updatedAt := st.clock }
    let p2 := match tags with
      | some t => { p1 with tags := t }
      | none => p1
    match importance with
      | some i => { p2 with importance := i }
      | none => p2
  let pids := getMemoryPointIds st mid
  let st1 := { st with coll := pids.foldl (fun c pid => updatePayloadAt c pid upd) st.coll }
  let st2 := { st1 with cache := cacheInvalidate st1.cache mid }
  some (st2, MemoryManager.get st2 mid)

def updateContentPath (cfg : MMConfig) (st : MMState) (mid : Uuid) (c : String)
    (existing : MemoryItem) (tags : Option (List String)) (importance : Option ℚ) :
    Option (MMState × Option MemoryItem) :=
  let st1 := (deleteMemoryPoints st mid).2
  match MemoryManager.store cfg st1 c (tags.getD existing.tags)
      (importance.getD existing.importance) with
  | none => none
  | some (newMem, st2) =>
      let st3 := (deleteMemoryPoints st2 newMem.id).2
      let updatedMemory : MemoryItem :=
        { id := mid, content := c, createdAt := existing.createdAt,
          updatedAt := st3.clock, accessedAt := st3.clock, accessCount := 0,
          importance := importance.getD existing.importance,
          tags := tags.getD existing.tags }
      if c.length > cfg.chunkSize then
        match TextChunker.chunk cfg.chunkCfg c with
        | none => none
        | some chunks =>
            let pts := chunks.map (fun ch =>
              (chunkUuid mid ch.chunkIndex,
               chunkPayload updatedMemory.toPayload c mid chunks.length ch))
            let st4 := { st3 with coll := upsertBatch st3.coll pts }
            let st5 := { st4 with cache := cacheInvalidate st4.cache mid }
            some (st5, MemoryManager.get st5 mid)
      else
        let pl := { updatedMemory.toPayload with isChunk := false, parentId := some mid }
        let st4 := { st3 with coll := upsertPoint st3.coll mid pl }
        let st5 := { st4 with cache := cacheInvalidate st4.cache mid }
        some (st5, MemoryManager.get st5 mid)

def MemoryManager.update (cfg : MMConfig) (st : MMState) (mid : Uuid)
    (content : Option String) (tags : Option (List String)) (importance : Option ℚ) :
    Option (MMState × Option MemoryItem) :=
  match MemoryManager.get st mid with
  | none => some (st, none)
  | some existing =>
      match content with
      | none => updateMetadataPath st mid tags importance
      | some c =>
          if c ≠ "" ∧ c ≠ existing.content then
            updateContentPath cfg st mid c existing tags importance
          else updateMetadataPath st mid tags importance

/-! ### Well-formedness

The freshness of uuid4 draws is modelled by a counter: a well-formed state
only mentions `v4 n` for `n` below the counter, and every chunk-id point
carries its uuid parent as `parent_id` (which is how the manager creates
them). -/

/-- Whether every `v4` constructor inside the uuid is below `n`. -/
def usesV4Below : Uuid → Nat → Bool
  | Uuid.v4 k, n => k < n
  | Uuid.v5chunk p _, n => usesV4Below p n

/-- Whether the payload's parent id (when present) only uses uuid4 draws
below `n`. -/
def parentBelow (p : Payload) (n : Nat) : Bool :=
  match p.parentId with
  | some u => usesV4Below u n
  | none => true

/-- Whether a chunk-id point carries its uuid parent as `parent_id`. -/
def chunkParentOK (i : Uuid) (p : Payload) : Bool :=
  match i with
  | Uuid.v5chunk u _ => decide (p.parentId = some u)
  | Uuid.v4 _ => true

/-- Well-formed collection for counter `n`. -/
def WFColl (coll : List (Uuid × Payload)) (n : Nat) : Prop :=
  (coll.map Prod.fst).Nodup ∧
  ∀ pr ∈ coll,
    usesV4Below pr.1 n = true ∧ parentBelow pr.2 n = true ∧ chunkParentOK pr.1 pr.2 = true

/-- Well-formed manager state. -/
def WFState (st : MMState) : Prop :=
  WFColl st.coll st.nextMemId ∧
  ∀ pr ∈ st.cache, usesV4Below pr.1 st.nextMemId = true

instance (coll : List (Uuid × Payload)) (n : Nat) : Decidable (WFColl coll n) := by
  unfold WFColl
  exact inferInstance

instance (st : MMState) : Decidable (WFState st) := by
  unfold WFState
  exact inferInstance


/-! ### Point-set lemmas -/

theorem foldlDedup_mem (l : List (Uuid × Payload)) (acc : List Uuid) (x : Uuid) :
    x ∈ l.foldl (fun ids cr => if cr.1 ∈ ids then ids else ids ++ [cr.1]) acc ↔
      x ∈ acc ∨ x ∈ l.map Prod.fst := by
  induction l generalizing acc with
  | nil => simp
  | cons hd tl ih =>
      simp only [List.foldl_cons, List.map_cons, List.mem_cons]
      by_cases h : hd.1 ∈ acc
      · rw [if_pos h, ih]
        constructor
        · rintro (h1 | h2)
          · exact Or.inl h1
          · exact Or.inr (Or.inr h2)
        · rintro (h1 | h2 | h3)
          · exact Or.inl h1
          · exact Or.inl (h2 ▸ h)
          · exact Or.inr h3
      · rw [if_neg h, ih]
        simp only [List.mem_append, List.mem_singleton]
        constructor
        · rintro ((h1 | h2) | h3)
          · exact Or.inl h1
          · exact Or.inr (Or.inl h2)
          · exact Or.inr (Or.inr h3)
        · rintro (h1 | h2 | h3)
          · exact Or.inl (Or.inl h1)
          · exact Or.inl (Or.inr h2)
          · exact Or.inr h3

theorem mem_pair_unique {l : List (Uuid × Payload)} (hnd : (l.map Prod.fst).Nodup)
    {x : Uuid} {p q : Payload} (hp : (x, p) ∈ l) (hq : (x, q) ∈ l) : p = q := by
  have h1 := plookup_eq_some_of_mem_nodup hnd hp
  have h2 := plookup_eq_some_of_mem_nodup hnd hq
  rw [h1] at h2
  exact Option.some_inj.mp h2

/-- Membership in `_get_memory_point_ids` when the parent-filtered point set
fits in the single scroll page. -/
theorem mem_getMemoryPointIds {st : MMState} {mid : Uuid}
    (hcount : (st.coll.filter (fun pr => pr.2.parentId = some mid)).length ≤ 1000)
    (x : Uuid) :
    x ∈ getMemoryPointIds st mid ↔
      (x = mid ∧ (plookup st.coll mid).isSome) ∨
      ∃ p, (x, p) ∈ st.coll ∧ p.parentId = some mid := by
  unfold getMemoryPointIds scrollByParent
  rw [List.take_of_length_le hcount, foldlDedup_mem]
  constructor
  · rintro (h1 | h2)
    · by_cases hd : (plookup st.coll mid).isSome
      · simp only [if_pos hd, List.mem_singleton] at h1
        exact Or.inl ⟨h1, hd⟩
      · simp only [if_neg hd, List.not_mem_nil] at h1
    · rcases List.mem_map.mp h2 with ⟨pr, hpr, hfst⟩
      have hparent := List.of_mem_filter hpr
      simp only [decide_eq_true_eq] at hparent
      exact Or.inr ⟨pr.2, by rw [← hfst]; exact List.mem_of_mem_filter hpr, hparent⟩
  · rintro (⟨hx, hd⟩ | ⟨p, hp, hparent⟩)
    · subst hx
      simp only [if_pos hd, List.mem_singleton]
      exact Or.inl trivial
    · refine Or.inr (List.mem_map.mpr ⟨(x, p), ?_, rfl⟩)
      exact List.mem_filter.mpr ⟨hp, by simp [hparent]⟩

/-- Characterisation of `_delete_memory_points` when the point set fits in the
scroll page: exactly the points with this id or this `parent_id` disappear. -/
theorem deleteMemoryPoints_coll {st : MMState} {mid : Uuid}
    (hnd : (st.coll.map Prod.fst).Nodup)
    (hcount : (st.coll.filter (fun pr => pr.2.parentId = some mid)).length ≤ 1000) :
    (deleteMemoryPoints st mid).2.coll =
      st.coll.filter (fun pr => ¬(pr.1 = mid ∨ pr.2.parentId = some mid)) := by
  unfold deleteMemoryPoints deleteByIds
  simp only
  apply List.filter_congr
  intro pr hpr
  have hiff : pr.1 ∈ getMemoryPointIds st mid ↔ (pr.1 = mid ∨ pr.2.parentId = some mid) := by
    rw [mem_getMemoryPointIds hcount]
    constructor
    · rintro (⟨h1, _⟩ | ⟨p, hp, hparent⟩)
      · exact Or.inl h1
      · have : p = pr.2 := mem_pair_unique hnd hp (by exact hpr)
        exact Or.inr (this ▸ hparent)
    · rintro (h1 | h2)
      · subst h1
        exact Or.inl ⟨rfl, Option.isSome_iff_exists.mpr
          ⟨pr.2, plookup_eq_some_of_mem_nodup hnd (by exact hpr)⟩⟩
      · exact Or.inr ⟨pr.2, by exact hpr, h2⟩
  simp only [decide_eq_decide]
  rw [hiff]

theorem upsertPoint_of_not_mem {coll : List (Uuid × Payload)} {id : Uuid}
    (h : id ∉ coll.map Prod.fst) (pl : Payload) :
    upsertPoint coll id pl = coll ++ [(id, pl)] := by
  unfold upsertPoint
  rw [if_neg]
  intro hany
  rcases List.any_eq_true.mp hany with ⟨pr, hpr, heq⟩
  simp only [decide_eq_true_eq] at heq
  exact h (heq ▸ List.mem_map.mpr ⟨pr, hpr, rfl⟩)

theorem upsertBatch_of_disjoint (pts : List (Uuid × Payload)) :
    ∀ (coll : List (Uuid × Payload)),
      (∀ i ∈ pts.map Prod.fst, i ∉ coll.map Prod.fst) → (pts.map Prod.fst).Nodup →
      upsertBatch coll pts = coll ++ pts := by
  induction pts with
  | nil => intro coll _ _; simp [upsertBatch]
  | cons hd tl ih =>
      intro coll hdisj hnd
      simp only [List.map_cons, List.nodup_cons] at hnd
      have h1 : upsertPoint coll hd.1 hd.2 = coll ++ [hd] := by
        have := upsertPoint_of_not_mem (hdisj hd.1 (by simp)) hd.2
        simpa using this
      have h2 : upsertBatch (upsertPoint coll hd.1 hd.2) tl = (coll ++ [hd]) ++ tl := by
        rw [show (upsertPoint coll hd.1 hd.2) = coll ++ [hd] from h1]
        apply ih
        · intro i hi
          simp only [List.map_append, List.mem_append, List.map_cons, List.map_nil,
            List.mem_singleton]
          rintro (hc | hh)
          · exact hdisj i (by simp [hi]) hc
          · exact hnd.1 (hh ▸ hi)
        · exact hnd.2
      exact h2.trans (by simp)

/-! ## Claim C3: delete cascade -/

/-- The C3 property at a state and memory id: after `delete([mid], kind)` the
collection holds no point with this id and no point with this `parent_id`. -/
def DeleteCascadeOK (st : MMState) (mid : Uuid) : Prop :=
  ∀ pr ∈ (MemoryManager.delete st [mid]).2.coll, pr.1 ≠ mid ∧ pr.2.parentId ≠ some mid

/-- C3 (amended).  When at most 1000 points carry `parent_id = mid` (a single
scroll page, `_get_memory_point_ids` uses `limit=1000`), the cascade removes
the direct point and every chunk: no point with `id = mid` or
`parent_id = mid` survives `delete`. -/
theorem delete_cascade_spec (st : MMState) (mid : Uuid)
    (hnd : (st.coll.map Prod.fst).Nodup)
    (hcount : (st.coll.filter (fun pr => pr.2.parentId = some mid)).length ≤ 1000) :
    DeleteCascadeOK st mid := by
  intro pr hpr
  have hcoll : (MemoryManager.delete st [mid]).2.coll =
      st.coll.filter (fun pr => ¬(pr.1 = mid ∨ pr.2.parentId = some mid)) := by
    unfold MemoryManager.delete
    simp only [List.foldl_cons, List.foldl_nil]
    exact deleteMemoryPoints_coll hnd hcount
  rw [hcoll] at hpr
  have := List.of_mem_filter hpr
  simp only [decide_not, Bool.not_eq_true', decide_eq_false_iff_not] at this
  push_neg at this
  exact this

/-- Concrete state for the C3 witness: one chunked memory with two chunks. -/
def c3wState : MMState :=
  { coll := [ (chunkUuid (Uuid.v4 0) 0,
               { content := "a", fullContent := some "ab", createdAt := 0, updatedAt := 0,
                 isChunk := true, parentId := some (Uuid.v4 0), chunkIndex := 0, chunkCount := 2 }),
              (chunkUuid (Uuid.v4 0) 1,
               { content := "b", fullContent := some "ab", createdAt := 0, updatedAt := 0,
                 isChunk := true, parentId := some (Uuid.v4 0), chunkIndex := 1, chunkCount := 2 }) ]
    cache := []
    clock := 1
    nextMemId := 1 }

/-- Witness for C3 at a concrete two-chunk state. -/
theorem delete_cascade_witness : DeleteCascadeOK c3wState (Uuid.v4 0) :=
  delete_cascade_spec c3wState (Uuid.v4 0) (by decide) (by decide)

/-- The payload of chunk `i` in the 1001-chunk counterexample state. -/
def c3pl (i : Nat) : Payload :=
  { content := "x", fullContent := some "y", createdAt := 0, updatedAt := 0,
    isChunk := true, parentId := some (Uuid.v4 0), chunkIndex := i, chunkCount := 1001 }

/-- A memory stored in 1001 chunks: one more point than one scroll page. -/
def c3CEState : MMState :=
  { coll := (List.range 1001).map (fun i => (chunkUuid (Uuid.v4 0) i, c3pl i))
    cache := []
    clock := 1
    nextMemId := 1 }

theorem c3CE_scroll : scrollByParent c3CEState.coll (Uuid.v4 0) 1000 =
    (List.range 1000).map (fun i => (chunkUuid (Uuid.v4 0) i, c3pl i)) := by
  unfold scrollByParent c3CEState
  simp only
  rw [List.filter_eq_self.mpr]
  · rw [← List.map_take]
    rw [List.take_range]
    norm_num
  · intro pr hpr
    rcases List.mem_map.mp hpr with ⟨i, _, rfl⟩
    simp [c3pl]

theorem c3CE_pids_not_mem :
    chunkUuid (Uuid.v4 0) 1000 ∉ getMemoryPointIds c3CEState (Uuid.v4 0) := by
  intro hmem
  have hrw : getMemoryPointIds c3CEState (Uuid.v4 0) =
      (scrollByParent c3CEState.coll (Uuid.v4 0) 1000).foldl
        (fun ids cr => if cr.1 ∈ ids then ids else ids ++ [cr.1])
        (if (plookup c3CEState.coll (Uuid.v4 0)).isSome then [Uuid.v4 0] else []) := rfl
  rw [hrw, c3CE_scroll, foldlDedup_mem] at hmem
  have hdirect : plookup c3CEState.coll (Uuid.v4 0) = none := by
    rw [plookup_eq_none_iff]
    intro hmem2
    rcases List.mem_map.mp hmem2 with ⟨pr, hpr, hfst⟩
    rcases List.mem_map.mp hpr with ⟨i, _, rfl⟩
    exact Uuid.noConfusion hfst
  rw [hdirect] at hmem
  rcases hmem with h1 | h2
  · simp at h1
  · rw [List.map_map] at h2
    rcases List.mem_map.mp h2 with ⟨i, hi, heq⟩
    simp only [Function.comp] at heq
    have hieq : i = 1000 := by
      have := (Uuid.v5chunk.injEq _ _ _ _).mp heq
      exact this.2
    subst hieq
    exact absurd (List.mem_range.mp hi) (by norm_num)

/-- C3 counterexample.  With 1001 chunk points sharing one `parent_id`, the
single `scroll(limit=1000)` in `_get_memory_point_ids` misses one chunk and
`delete` leaves a point whose `parent_id` is the deleted memory id: the claim
as stated fails. -/
theorem delete_cascade_counterexample : ¬ DeleteCascadeOK c3CEState (Uuid.v4 0) := by
  intro h
  have hcoll : (MemoryManager.delete c3CEState [Uuid.v4 0]).2.coll =
      deleteByIds c3CEState.coll (getMemoryPointIds c3CEState (Uuid.v4 0)) := by
    unfold MemoryManager.delete deleteMemoryPoints
    simp only [List.foldl_cons, List.foldl_nil]
  have hsurvive : (chunkUuid (Uuid.v4 0) 1000, c3pl 1000) ∈
      (MemoryManager.delete c3CEState [Uuid.v4 0]).2.coll := by
    rw [hcoll]
    unfold deleteByIds
    refine List.mem_filter.mpr ⟨?_, ?_⟩
    · refine List.mem_map.mpr ⟨1000, ?_, rfl⟩
      exact List.mem_range.mpr (by norm_num)
    · exact decide_eq_true c3CE_pids_not_mem
  have := (h _ hsurvive).2
  simp [c3pl] at this


/-! ### Infrastructure for the update-path claims (C2, C10) -/

/-- The collection with the whole point set of `mid` removed. -/
def cleanedOf (coll : List (Uuid × Payload)) (mid : Uuid) : List (Uuid × Payload) :=
  coll.filter (fun pr => ¬(pr.1 = mid ∨ pr.2.parentId = some mid))

theorem deleteMemoryPoints_snd {st : MMState} {mid : Uuid}
    (hnd : (st.coll.map Prod.fst).Nodup)
    (hcount : (st.coll.filter (fun pr => pr.2.parentId = some mid)).length ≤ 1000) :
    (deleteMemoryPoints st mid).2 = { st with coll := cleanedOf st.coll mid } := by
  have h := deleteMemoryPoints_coll hnd hcount
  have h2 : (deleteMemoryPoints st mid).2 =
      { st with coll := (deleteMemoryPoints st mid).2.coll } := rfl
  rw [h2, h]
  rfl

/-- The chunk indices assigned by `TextChunker.chunk` are dense from zero. -/
theorem chunk_indices {cfg : ChunkingConfig} {s : String} {cl : List TextChunk}
    (h : TextChunker.chunk cfg s = some cl) :
    cl.map (fun c => c.chunkIndex) = List.range cl.length := by
  unfold TextChunker.chunk at h
  by_cases h0 : s = "" ∨ pyStrip s = ""
  · rw [if_pos h0] at h
    cases h
    simp
  · rw [if_neg h0] at h
    cases hrec : recursiveChunk cfg (normalizeWhitespace s) 0 with
    | none => rw [hrec] at h; cases h
    | some cl0 =>
        rw [hrec] at h
        simp only [Option.map_some] at h
        cases h
        rw [List.map_map, List.length_map]
        have hcomp : ((fun c => c.chunkIndex) ∘ fun ip : Nat × TextChunk => { ip.2 with chunkIndex := ip.1 }) =
            Prod.fst := by
          funext ip
          rfl
        rw [hcomp, List.enum_map_fst, List.enum_length]

theorem usesV4Below_chunkUuid (u : Uuid) (i n : Nat) :
    usesV4Below (chunkUuid u i) n = usesV4Below u n := rfl

theorem usesV4Below_v4_self (n : Nat) : usesV4Below (Uuid.v4 n) n = false := by
  simp [usesV4Below]

/-- Ids of a cleaned collection stay duplicate-free. -/
theorem cleanedOf_nodup {coll : List (Uuid × Payload)} {mid : Uuid}
    (hnd : (coll.map Prod.fst).Nodup) : ((cleanedOf coll mid).map Prod.fst).Nodup :=
  List.Nodup.sublist (List.Sublist.map Prod.fst (List.filter_sublist coll)) hnd

theorem mem_cleanedOf {coll : List (Uuid × Payload)} {mid : Uuid} {pr : Uuid × Payload} :
    pr ∈ cleanedOf coll mid ↔ pr ∈ coll ∧ pr.1 ≠ mid ∧ pr.2.parentId ≠ some mid := by
  unfold cleanedOf
  rw [List.mem_filter]
  simp only [decide_not, Bool.not_eq_true', decide_eq_false_iff_not]
  constructor
  · rintro ⟨h1, h2⟩
    push_neg at h2
    exact ⟨h1, h2⟩
  · rintro ⟨h1, h2, h3⟩
    exact ⟨h1, by push_neg; exact ⟨h2, h3⟩⟩

/-- Lookup through a filter whose predicate keeps every entry with this key. -/
theorem plookup_filter_of_pred {α : Type} (p : Uuid × α → Bool) (l : List (Uuid × α))
    (k : Uuid) (hp : ∀ v, p (k, v) = true) :
    plookup (l.filter p) k = plookup l k := by
  induction l with
  | nil => rfl
  | cons hd tl ih =>
      obtain ⟨a, b⟩ := hd
      by_cases hak : a = k
      · subst hak
        rw [List.filter_cons, hp b]
        simp [plookup]
      · rw [List.filter_cons]
        cases hpb : p (a, b) with
        | true =>
            simp only [if_true]
            simp only [plookup, if_neg hak]
            exact ih
        | false =>
            simp only [Bool.false_eq_true, if_false]
            rw [ih]
            simp only [plookup, if_neg hak]

/-- Lookup is unaffected by invalidating a different key. -/
theorem plookup_cacheInvalidate_other {α : Type} (l : List (Uuid × α)) (m k : Uuid)
    (hk : k ≠ m) :
    plookup (l.filter (fun pr => pr.1 ≠ m)) k = plookup l k := by
  apply plookup_filter_of_pred
  intro v
  simp [hk]

/-- A freshly put key is found in the LRU cache. -/
theorem plookup_lruPut_self {cache : List (Uuid × MemoryItem)} {k : Uuid}
    (hfresh : k ∉ cache.map Prod.fst) (v : MemoryItem) :
    plookup (lruPut cache k v) k = some v := by
  unfold lruPut
  have hfil : cache.filter (fun pr => pr.1 ≠ k) = cache := by
    apply List.filter_eq_self.mpr
    intro pr hpr
    simp only [ne_eq, decide_not, Bool.not_eq_true', decide_eq_false_iff_not]
    intro he
    exact hfresh (he ▸ List.mem_map.mpr ⟨pr, hpr, rfl⟩)
  rw [hfil]
  set c := cache ++ [(k, v)] with hc
  have hlen : c.length - cacheMaxSize ≤ cache.length := by
    simp only [hc, List.length_append, List.length_cons, List.length_nil, cacheMaxSize]
    omega
  rw [hc, List.drop_append_of_le_length hlen]
  rw [plookup_append_right]
  · simp [plookup]
  · intro hmem
    rcases List.mem_map.mp hmem with ⟨pr, hpr, hfst⟩
    exact hfresh (hfst ▸ List.mem_map.mpr ⟨pr, List.mem_of_mem_drop hpr, rfl⟩)


theorem chunkUuid_inj (parent : Uuid) {i j : Nat} (h : chunkUuid parent i = chunkUuid parent j) :
    i = j := ((Uuid.v5chunk.injEq _ _ _ _).mp h).2

theorem chunk_ids_map (parent : Uuid) (chunks : List TextChunk) (f : TextChunk → Payload) :
    (chunks.map (fun ch => (chunkUuid parent ch.chunkIndex, f ch))).map Prod.fst =
      (chunks.map (fun c => c.chunkIndex)).map (chunkUuid parent) := by
  rw [List.map_map, List.map_map]
  rfl

theorem chunk_pts_nodup (parent : Uuid) (chunks : List TextChunk) (f : TextChunk → Payload)
    (hidx : chunks.map (fun c => c.chunkIndex) = List.range chunks.length) :
    ((chunks.map (fun ch => (chunkUuid parent ch.chunkIndex, f ch))).map Prod.fst).Nodup := by
  rw [chunk_ids_map, hidx]
  exact List.Nodup.map (fun a b h => chunkUuid_inj parent h) (List.nodup_range _)

/-- A uuid whose v4 draws are not all below `n` cannot be a key of a collection
whose keys are all below `n`. -/
theorem not_mem_fst_of_v4false {coll : List (Uuid × Payload)} {n : Nat}
    (hwfL : ∀ pr ∈ coll, usesV4Below pr.1 n = true) {u : Uuid}
    (hu : usesV4Below u n = false) : u ∉ coll.map Prod.fst := by
  intro hmem
  rcases List.mem_map.mp hmem with ⟨pr, hpr, hfst⟩
  rw [← hfst] at hu
  rw [hwfL pr hpr] at hu
  cases hu

/-! ### The content-update reduction (C2, C10)

The following definitions spell out the state `update(mid, content=X)` reaches:
the point set of `mid` removed, the temporary memory cached under the fresh
uuid4, and the re-created points under the original id.  The reduction lemmas
prove that `MemoryManager.update` computes exactly these states. -/

/-- The temporary memory `store()` creates inside `update`. -/
def tempMemOf (st : MMState) (X : String) (existing : MemoryItem) : MemoryItem :=
  createMemoryAt st X existing.tags existing.importance

/-- The `updated_memory` rebuilt under the original id and `created_at`. -/
def updMemoryOf (st : MMState) (mid : Uuid) (X : String) (existing : MemoryItem) : MemoryItem :=
  { id := mid, content := X, createdAt := existing.createdAt, updatedAt := st.clock + 1,
    accessedAt := st.clock + 1, accessCount := 0, importance := existing.importance,
    tags := existing.tags }

/-- The cache after `update`: the temporary entry stays, the original entry is
invalidated. -/
def updCacheOf (st : MMState) (mid : Uuid) (X : String) (existing : MemoryItem) :
    List (Uuid × MemoryItem) :=
  cacheInvalidate (lruPut st.cache (Uuid.v4 st.nextMemId) (tempMemOf st X existing)) mid

/-- The payload of the single re-created point. -/
def updSinglePayload (st : MMState) (mid : Uuid) (X : String) (existing : MemoryItem) : Payload :=
  { (updMemoryOf st mid X existing).toPayload with isChunk := false, parentId := some mid }

/-- The collection after a single-point content update. -/
def updSingleColl (st : MMState) (mid : Uuid) (X : String) (existing : MemoryItem) :
    List (Uuid × Payload) :=
  cleanedOf st.coll mid ++ [(mid, updSinglePayload st mid X existing)]

/-- The state after a single-point content update. -/
def updSingleState (st : MMState) (mid : Uuid) (X : String) (existing : MemoryItem) : MMState :=
  { coll := updSingleColl st mid X existing
    cache := updCacheOf st mid X existing
    clock := st.clock + 1
    nextMemId := st.nextMemId + 1 }


/-- The state `store` reaches on the chunked path. -/
def storeChunkedState (st : MMState) (X : String) (tags : List String) (imp : ℚ)
    (chunks : List TextChunk) : MMState :=
  { coll := upsertBatch st.coll (chunks.map (fun ch =>
      (chunkUuid (Uuid.v4 st.nextMemId) ch.chunkIndex,
       chunkPayload (createMemoryAt st X tags imp).toPayload X (Uuid.v4 st.nextMemId)
         chunks.length ch)))
    cache := lruPut st.cache (Uuid.v4 st.nextMemId) (createMemoryAt st X tags imp)
    clock := st.clock + 1
    nextMemId := st.nextMemId + 1 }

theorem store_chunked_eq (cfg : MMConfig) (st : MMState) (X : String)
    (tags : List String) (imp : ℚ) (chunks : List TextChunk)
    (hlen : X.length > cfg.chunkSize)
    (hchunk : TextChunker.chunk cfg.chunkCfg X = some chunks) :
    MemoryManager.store cfg st X tags imp =
      some (createMemoryAt st X tags imp, storeChunkedState st X tags imp chunks) := by
  unfold MemoryManager.store
  simp only []
  rw [if_pos hlen, hchunk]
  simp only []
  rfl

/-- The payload of the single point `store` writes. -/
def storeSinglePayload (st : MMState) (X : String) (tags : List String) (imp : ℚ) : Payload :=
  { (createMemoryAt st X tags imp).toPayload with isChunk := false, parentId := some (Uuid.v4 st.nextMemId) }

/-- The state `store` reaches on the single-point path. -/
def storeSingleState (st : MMState) (X : String) (tags : List String) (imp : ℚ) : MMState :=
  { coll := upsertPoint st.coll (Uuid.v4 st.nextMemId) (storeSinglePayload st X tags imp)
    cache := lruPut st.cache (Uuid.v4 st.nextMemId) (createMemoryAt st X tags imp)
    clock := st.clock + 1
    nextMemId := st.nextMemId + 1 }

theorem store_single_eq (cfg : MMConfig) (st : MMState) (X : String)
    (tags : List String) (imp : ℚ)
    (hlen : ¬(X.length > cfg.chunkSize)) :
    MemoryManager.store cfg st X tags imp =
      some (createMemoryAt st X tags imp, storeSingleState st X tags imp) := by
  unfold MemoryManager.store
  simp only []
  rw [if_neg hlen]
  rfl


/-- Key facts about the cleaned collection of a well-formed state. -/
theorem cleanedOf_facts {st : MMState} {mid : Uuid}
    (hwfp : ∀ pr ∈ st.coll,
      usesV4Below pr.1 st.nextMemId = true ∧ parentBelow pr.2 st.nextMemId = true ∧
      chunkParentOK pr.1 pr.2 = true) :
    ∀ pr ∈ cleanedOf st.coll mid,
      usesV4Below pr.1 st.nextMemId = true ∧ parentBelow pr.2 st.nextMemId = true ∧
      chunkParentOK pr.1 pr.2 = true := by
  intro pr hpr
  exact hwfp pr (mem_cleanedOf.mp hpr).1

/-- No point of a well-formed collection is keyed by a uuid mentioning the
fresh draw, and none has it as parent. -/
theorem fresh_not_rel {coll : List (Uuid × Payload)} {n : Nat}
    (hwfL : ∀ pr ∈ coll,
      usesV4Below pr.1 n = true ∧ parentBelow pr.2 n = true ∧ chunkParentOK pr.1 pr.2 = true) :
    ∀ pr ∈ coll, pr.1 ≠ Uuid.v4 n ∧ pr.2.parentId ≠ some (Uuid.v4 n) := by
  intro pr hpr
  obtain ⟨h1, h2, _⟩ := hwfL pr hpr
  constructor
  · intro he
    rw [he, usesV4Below_v4_self] at h1
    cases h1
  · intro he
    unfold parentBelow at h2
    rw [he] at h2
    simp only at h2
    rw [usesV4Below_v4_self] at h2
    cases h2

theorem cleanedOf_append (A B : List (Uuid × Payload)) (m : Uuid) :
    cleanedOf (A ++ B) m = cleanedOf A m ++ cleanedOf B m :=
  List.filter_append _ _

/-! ### The update path without page bounds

`_delete_memory_points` removes exactly the ids its single-page lookup
collected; `residualOf` names the collection it leaves.  When the memory's
point set fits the page this is the fully cleaned collection, but the
reduction lemmas below do not assume any bound: they track the temporary
chunk points a large store leaves behind through the second delete. -/

/-- The collection `_delete_memory_points(mid)` leaves. -/
def residualOf (st : MMState) (mid : Uuid) : List (Uuid × Payload) :=
  deleteByIds st.coll (getMemoryPointIds st mid)

theorem mem_residualOf_sub {st : MMState} {mid : Uuid} {pr : Uuid × Payload}
    (h : pr ∈ residualOf st mid) : pr ∈ st.coll :=
  List.mem_of_mem_filter h

theorem residual_nodup {st : MMState} {mid : Uuid}
    (hnd : (st.coll.map Prod.fst).Nodup) :
    ((residualOf st mid).map Prod.fst).Nodup :=
  List.Nodup.sublist (List.Sublist.map Prod.fst (List.filter_sublist st.coll)) hnd

/-- Under the page bound the residual collection is the fully cleaned one. -/
theorem residual_eq_cleaned {st : MMState} {mid : Uuid}
    (hnd : (st.coll.map Prod.fst).Nodup)
    (hcount : (st.coll.filter (fun pr => pr.2.parentId = some mid)).length ≤ 1000) :
    residualOf st mid = cleanedOf st.coll mid :=
  deleteMemoryPoints_coll hnd hcount

/-- The direct point `mid` never survives `_delete_memory_points(mid)`,
page bound or not: when present it is collected unconditionally. -/
theorem mid_not_in_residual (st : MMState) (mid : Uuid) :
    mid ∉ (residualOf st mid).map Prod.fst := by
  intro hmem
  rcases List.mem_map.mp hmem with ⟨pr, hpr, hfst⟩
  have hnotin := List.of_mem_filter hpr
  rw [hfst] at hnotin
  have hsome : (plookup st.coll mid).isSome := by
    cases hlk : plookup st.coll mid with
    | some v => rfl
    | none =>
        have hin : pr ∈ st.coll := List.mem_of_mem_filter hpr
        exact absurd (hfst ▸ List.mem_map.mpr ⟨pr, hin, rfl⟩)
          ((plookup_eq_none_iff _ _).mp hlk)
  have hmid_in : mid ∈ getMemoryPointIds st mid := by
    have hrw : getMemoryPointIds st mid =
        (scrollByParent st.coll mid 1000).foldl
          (fun ids cr => if cr.1 ∈ ids then ids else ids ++ [cr.1])
          (if (plookup st.coll mid).isSome then [mid] else []) := rfl
    rw [hrw, foldlDedup_mem, if_pos hsome]
    exact Or.inl (List.mem_singleton_self _)
  exact absurd hmid_in (of_decide_eq_true hnotin)

/-- Filtering a disjoint concatenation on "key not in the first part" keeps
exactly the second part. -/
theorem filter_keys_split (C D : List (Uuid × Payload))
    (hdisj : ∀ x ∈ D.map Prod.fst, x ∉ C.map Prod.fst) :
    (C ++ D).filter (fun pr => pr.1 ∉ C.map Prod.fst) = D := by
  rw [List.filter_append]
  have ht : C.filter (fun pr => pr.1 ∉ C.map Prod.fst) = [] := by
    apply List.filter_eq_nil_iff.mpr
    intro pr hpr
    simp only [decide_not, Bool.not_eq_true', decide_eq_false_iff_not, not_not]
    exact List.mem_map.mpr ⟨pr, hpr, rfl⟩
  have hd2 : D.filter (fun pr => pr.1 ∉ C.map Prod.fst) = D := by
    apply List.filter_eq_self.mpr
    intro pr hpr
    exact decide_eq_true (hdisj pr.1 (List.mem_map.mpr ⟨pr, hpr, rfl⟩))
  rw [ht, hd2, List.nil_append]

/-- The partial delete: when every point parented to `d` sits in a block `B`
disjoint from the rest `A`, none is keyed `d`, and `d` has no direct point,
`_delete_memory_points(d)` removes exactly the first scroll page of `B` —
with more than 1000 such points, `B.drop 1000` survives. -/
theorem deleteMemoryPoints_onePage {st2 : MMState} {d : Uuid}
    {A B : List (Uuid × Payload)}
    (hcoll : st2.coll = A ++ B)
    (hAkey : d ∉ A.map Prod.fst)
    (hApar : ∀ pr ∈ A, pr.2.parentId ≠ some d)
    (hBpar : ∀ pr ∈ B, pr.2.parentId = some d)
    (hBnd : (B.map Prod.fst).Nodup)
    (hBd : d ∉ B.map Prod.fst)
    (hAB : ∀ x ∈ B.map Prod.fst, x ∉ A.map Prod.fst) :
    (deleteMemoryPoints st2 d).2 = { st2 with coll := A ++ B.drop 1000 } := by
  have hdirect : plookup st2.coll d = none := by
    rw [hcoll, plookup_eq_none_iff, List.map_append]
    intro hm
    rcases List.mem_append.mp hm with h | h
    · exact hAkey h
    · exact hBd h
  have hscroll : scrollByParent st2.coll d 1000 = B.take 1000 := by
    unfold scrollByParent
    rw [hcoll, List.filter_append]
    have h1 : A.filter (fun pr => pr.2.parentId = some d) = [] := by
      apply List.filter_eq_nil_iff.mpr
      intro pr hpr
      simp only [decide_eq_true_eq]
      exact hApar pr hpr
    have h2 : B.filter (fun pr => pr.2.parentId = some d) = B := by
      apply List.filter_eq_self.mpr
      intro pr hpr
      simp only [decide_eq_true_eq]
      exact hBpar pr hpr
    rw [h1, h2, List.nil_append]
  have hpidmem : ∀ x : Uuid,
      x ∈ getMemoryPointIds st2 d ↔ x ∈ (B.take 1000).map Prod.fst := by
    intro x
    have hrw : getMemoryPointIds st2 d =
        (scrollByParent st2.coll d 1000).foldl
          (fun ids cr => if cr.1 ∈ ids then ids else ids ++ [cr.1])
          (if (plookup st2.coll d).isSome then [d] else []) := rfl
    have hinit : (if (plookup st2.coll d).isSome then [d] else []) = ([] : List Uuid) := by
      rw [hdirect]
      rfl
    rw [hrw, hscroll, hinit, foldlDedup_mem]
    simp
  have hnd2 : ((B.take 1000 ++ B.drop 1000).map Prod.fst).Nodup := by
    rw [List.take_append_drop]
    exact hBnd
  have hdisj : ∀ x ∈ (B.drop 1000).map Prod.fst, x ∉ (B.take 1000).map Prod.fst := by
    rw [List.map_append] at hnd2
    have hd := List.nodup_append.mp hnd2
    intro x hx hcx
    exact hd.2.2 hcx hx
  have hA2 : A.filter (fun pr => pr.1 ∉ getMemoryPointIds st2 d) = A := by
    apply List.filter_eq_self.mpr
    intro pr hpr
    apply decide_eq_true
    intro hm
    rw [hpidmem] at hm
    have hinB : pr.1 ∈ B.map Prod.fst := by
      rcases List.mem_map.mp hm with ⟨q, hq, hfst⟩
      exact hfst ▸ List.mem_map.mpr ⟨q, List.mem_of_mem_take hq, rfl⟩
    exact hAB pr.1 hinB (List.mem_map.mpr ⟨pr, hpr, rfl⟩)
  have hB2 : B.filter (fun pr => pr.1 ∉ getMemoryPointIds st2 d) = B.drop 1000 := by
    have hcong : ∀ pr ∈ B, (decide (pr.1 ∉ getMemoryPointIds st2 d)) =
        (decide (pr.1 ∉ (B.take 1000).map Prod.fst)) := by
      intro pr _
      exact decide_eq_decide.mpr (not_congr (hpidmem pr.1))
    calc B.filter (fun pr => pr.1 ∉ getMemoryPointIds st2 d)
        = B.filter (fun pr => pr.1 ∉ (B.take 1000).map Prod.fst) :=
          List.filter_congr hcong
      _ = (B.take 1000 ++ B.drop 1000).filter
            (fun pr => pr.1 ∉ (B.take 1000).map Prod.fst) := by
          rw [List.take_append_drop]
      _ = B.drop 1000 := filter_keys_split _ _ hdisj
  have hdel : deleteByIds (A ++ B) (getMemoryPointIds st2 d) = A ++ B.drop 1000 := by
    unfold deleteByIds
    rw [List.filter_append, hA2, hB2]
  have hform : (deleteMemoryPoints st2 d).2 =
      { st2 with coll := deleteByIds st2.coll (getMemoryPointIds st2 d) } := rfl
  rw [hform, hcoll, hdel]

/-- The temporary chunk points `store` writes inside the update path. -/
def tempPtsOf (st : MMState) (X : String) (existing : MemoryItem)
    (chunks : List TextChunk) : List (Uuid × Payload) :=
  chunks.map (fun ch =>
    (chunkUuid (Uuid.v4 st.nextMemId) ch.chunkIndex,
     chunkPayload (tempMemOf st X existing).toPayload X (Uuid.v4 st.nextMemId)
       chunks.length ch))

/-- The collection after a chunked content update, with no bound on the
memory's point set or on the chunk count: the residual collection, the
temporary chunk points beyond the second delete's single scroll page, and the
re-created chunk points upserted over them. -/
def updChunkedCollG (st : MMState) (mid : Uuid) (X : String) (existing : MemoryItem)
    (chunks : List TextChunk) : List (Uuid × Payload) :=
  upsertBatch (residualOf st mid ++ (tempPtsOf st X existing chunks).drop 1000)
    (chunks.map (fun ch =>
      (chunkUuid mid ch.chunkIndex,
       chunkPayload (updMemoryOf st mid X existing).toPayload X mid chunks.length ch)))

/-- The state after a chunked content update (no page bounds assumed). -/
def updChunkedStateG (st : MMState) (mid : Uuid) (X : String) (existing : MemoryItem)
    (chunks : List TextChunk) : MMState :=
  { coll := updChunkedCollG st mid X existing chunks
    cache := updCacheOf st mid X existing
    clock := st.clock + 1
    nextMemId := st.nextMemId + 1 }

/-- The collection after a single-point content update (no page bounds
assumed). -/
def updSingleCollG (st : MMState) (mid : Uuid) (X : String) (existing : MemoryItem) :
    List (Uuid × Payload) :=
  residualOf st mid ++ [(mid, updSinglePayload st mid X existing)]

/-- The state after a single-point content update (no page bounds assumed). -/
def updSingleStateG (st : MMState) (mid : Uuid) (X : String) (existing : MemoryItem) :
    MMState :=
  { coll := updSingleCollG st mid X existing
    cache := updCacheOf st mid X existing
    clock := st.clock + 1
    nextMemId := st.nextMemId + 1 }

theorem updateContentPath_chunked_eq
    (cfg : MMConfig) (st : MMState) (mid : Uuid) (X : String) (existing : MemoryItem)
    (chunks : List TextChunk)
    (hwf : WFState st)
    (hlen : X.length > cfg.chunkSize)
    (hchunk : TextChunker.chunk cfg.chunkCfg X = some chunks) :
    updateContentPath cfg st mid X existing none none =
      some (updChunkedStateG st mid X existing chunks,
            MemoryManager.get (updChunkedStateG st mid X existing chunks) mid) := by
  obtain ⟨⟨hnd, hwfp⟩, hwfc⟩ := hwf
  have hidx := chunk_indices hchunk
  have hwfpA : ∀ pr ∈ residualOf st mid,
      usesV4Below pr.1 st.nextMemId = true ∧ parentBelow pr.2 st.nextMemId = true ∧
      chunkParentOK pr.1 pr.2 = true :=
    fun pr hpr => hwfp pr (mem_residualOf_sub hpr)
  have hfreshA := @fresh_not_rel (residualOf st mid) st.nextMemId hwfpA
  have hst1 : (deleteMemoryPoints st mid).2 = { st with coll := residualOf st mid } := rfl
  set stA : MMState := { st with coll := residualOf st mid } with hstA
  have hmemA : createMemoryAt stA X existing.tags existing.importance =
      tempMemOf st X existing := rfl
  set tempPts := chunks.map (fun ch =>
    (chunkUuid (Uuid.v4 st.nextMemId) ch.chunkIndex,
     chunkPayload (tempMemOf st X existing).toPayload X (Uuid.v4 st.nextMemId)
       chunks.length ch)) with htempPts
  have htempIds : tempPts.map Prod.fst =
      (chunks.map (fun c => c.chunkIndex)).map (chunkUuid (Uuid.v4 st.nextMemId)) :=
    chunk_ids_map _ _ _
  have htempNodup : (tempPts.map Prod.fst).Nodup := chunk_pts_nodup _ _ _ hidx
  have htempFresh : ∀ i ∈ tempPts.map Prod.fst, usesV4Below i st.nextMemId = false := by
    intro i hi
    rw [htempIds] at hi
    rcases List.mem_map.mp hi with ⟨k, _, rfl⟩
    rw [usesV4Below_chunkUuid, usesV4Below_v4_self]
  have htempDisj : ∀ i ∈ tempPts.map Prod.fst, i ∉ (residualOf st mid).map Prod.fst := by
    intro i hi
    exact not_mem_fst_of_v4false (fun pr hpr => (hwfpA pr hpr).1) (htempFresh i hi)
  have hupA : upsertBatch (residualOf st mid) tempPts = residualOf st mid ++ tempPts :=
    upsertBatch_of_disjoint tempPts _ htempDisj htempNodup
  set st2v : MMState := storeChunkedState stA X existing.tags existing.importance chunks
    with hst2v
  have hst2coll : st2v.coll = residualOf st mid ++ tempPts := by
    rw [hst2v]
    unfold storeChunkedState
    simp only []
    rw [hmemA]
    exact hupA
  have htempParent : ∀ pr ∈ tempPts, pr.2.parentId = some (Uuid.v4 st.nextMemId) := by
    intro pr hpr
    rw [htempPts] at hpr
    rcases List.mem_map.mp hpr with ⟨ch, _, rfl⟩
    rfl
  have hAkey : Uuid.v4 st.nextMemId ∉ (residualOf st mid).map Prod.fst :=
    not_mem_fst_of_v4false (fun pr hpr => (hwfpA pr hpr).1) (usesV4Below_v4_self _)
  have hApar : ∀ pr ∈ residualOf st mid, pr.2.parentId ≠ some (Uuid.v4 st.nextMemId) :=
    fun pr hpr => (hfreshA pr hpr).2
  have hBd : Uuid.v4 st.nextMemId ∉ tempPts.map Prod.fst := by
    intro hmem
    rw [htempIds] at hmem
    rcases List.mem_map.mp hmem with ⟨k, _, hk⟩
    exact Uuid.noConfusion hk
  -- the second delete removes one page of the temporary points
  have hst3 : (deleteMemoryPoints st2v
        ((createMemoryAt stA X existing.tags existing.importance).id)).2 =
      { coll := residualOf st mid ++ tempPts.drop 1000
        cache := lruPut st.cache (Uuid.v4 st.nextMemId) (tempMemOf st X existing)
        clock := st.clock + 1
        nextMemId := st.nextMemId + 1 } := by
    have hid : (createMemoryAt stA X existing.tags existing.importance).id =
        Uuid.v4 st.nextMemId := rfl
    rw [hid]
    rw [deleteMemoryPoints_onePage hst2coll hAkey hApar htempParent htempNodup hBd htempDisj]
    rfl
  -- assemble
  unfold updateContentPath
  simp only []
  rw [hst1]
  simp only [Option.getD_none]
  rw [store_chunked_eq cfg stA X existing.tags existing.importance chunks hlen hchunk]
  rw [← hst2v]
  simp only []
  rw [hst3]
  simp only []
  rw [if_pos hlen, hchunk]
  simp only []
  have hume :
      ({ id := mid, content := X, createdAt := existing.createdAt, updatedAt := st.clock + 1,
         accessedAt := st.clock + 1, accessCount := 0, importance := existing.importance,
         tags := existing.tags } : MemoryItem) = updMemoryOf st mid X existing := rfl
  rw [hume]
  rfl

theorem updateContentPath_single_eq
    (cfg : MMConfig) (st : MMState) (mid : Uuid) (X : String) (existing : MemoryItem)
    (hwf : WFState st)
    (hlen : ¬(X.length > cfg.chunkSize)) :
    updateContentPath cfg st mid X existing none none =
      some (updSingleStateG st mid X existing,
            MemoryManager.get (updSingleStateG st mid X existing) mid) := by
  obtain ⟨⟨hnd, hwfp⟩, hwfc⟩ := hwf
  have hndA : ((residualOf st mid).map Prod.fst).Nodup := residual_nodup hnd
  have hwfpA : ∀ pr ∈ residualOf st mid,
      usesV4Below pr.1 st.nextMemId = true ∧ parentBelow pr.2 st.nextMemId = true ∧
      chunkParentOK pr.1 pr.2 = true :=
    fun pr hpr => hwfp pr (mem_residualOf_sub hpr)
  have hfreshA := @fresh_not_rel (residualOf st mid) st.nextMemId hwfpA
  have hst1 : (deleteMemoryPoints st mid).2 = { st with coll := residualOf st mid } := rfl
  set stA : MMState := { st with coll := residualOf st mid } with hstA
  have htempNotIn : Uuid.v4 st.nextMemId ∉ (residualOf st mid).map Prod.fst :=
    not_mem_fst_of_v4false (fun pr hpr => (hwfpA pr hpr).1) (usesV4Below_v4_self _)
  set tempPl := storeSinglePayload stA X existing.tags existing.importance with htempPl
  have hupA : upsertPoint (residualOf st mid) (Uuid.v4 st.nextMemId) tempPl =
      residualOf st mid ++ [(Uuid.v4 st.nextMemId, tempPl)] :=
    upsertPoint_of_not_mem htempNotIn _
  set st2v : MMState := storeSingleState stA X existing.tags existing.importance with hst2v
  have hst2coll : st2v.coll = residualOf st mid ++ [(Uuid.v4 st.nextMemId, tempPl)] := by
    rw [hst2v]
    unfold storeSingleState
    simp only []
    exact hupA
  have htempParent : tempPl.parentId = some (Uuid.v4 st.nextMemId) := rfl
  have hnd2 : (st2v.coll.map Prod.fst).Nodup := by
    rw [hst2coll, List.map_append]
    refine List.Nodup.append hndA (List.nodup_singleton _) ?_
    intro x hx hx2
    simp only [List.map_cons, List.map_nil, List.mem_singleton] at hx2
    subst hx2
    exact htempNotIn hx
  have hcount2 : (st2v.coll.filter
      (fun pr => pr.2.parentId = some (Uuid.v4 st.nextMemId))).length ≤ 1000 := by
    rw [hst2coll, List.filter_append]
    have h1 : (residualOf st mid).filter
        (fun pr => pr.2.parentId = some (Uuid.v4 st.nextMemId)) = [] := by
      apply List.filter_eq_nil_iff.mpr
      intro pr hpr
      simp only [decide_eq_true_eq]
      exact (hfreshA pr hpr).2
    rw [h1, List.nil_append]
    have h2 := List.length_filter_le
      (fun pr : Uuid × Payload => decide (pr.2.parentId = some (Uuid.v4 st.nextMemId)))
      [(Uuid.v4 st.nextMemId, tempPl)]
    simp only [List.length_cons, List.length_nil] at h2
    omega
  have hclean1 : cleanedOf (residualOf st mid) (Uuid.v4 st.nextMemId) =
      residualOf st mid := by
    apply List.filter_eq_self.mpr
    intro pr hpr
    simp only [decide_not, Bool.not_eq_true', decide_eq_false_iff_not]
    push_neg
    exact hfreshA pr hpr
  have hclean2 : cleanedOf [(Uuid.v4 st.nextMemId, tempPl)] (Uuid.v4 st.nextMemId) = [] := by
    apply List.filter_eq_nil_iff.mpr
    intro pr hpr
    simp only [List.mem_singleton] at hpr
    subst hpr
    simp
  have hcleaned2 : cleanedOf st2v.coll (Uuid.v4 st.nextMemId) = residualOf st mid := by
    rw [hst2coll, cleanedOf_append, hclean1, hclean2, List.append_nil]
  have hst3 : (deleteMemoryPoints st2v
        ((createMemoryAt stA X existing.tags existing.importance).id)).2 =
      { coll := residualOf st mid
        cache := lruPut st.cache (Uuid.v4 st.nextMemId) (tempMemOf st X existing)
        clock := st.clock + 1
        nextMemId := st.nextMemId + 1 } := by
    have hid : (createMemoryAt stA X existing.tags existing.importance).id =
        Uuid.v4 st.nextMemId := rfl
    rw [hid]
    rw [deleteMemoryPoints_snd hnd2 hcount2]
    rw [show ({ st2v with coll := cleanedOf st2v.coll (Uuid.v4 st.nextMemId) } : MMState) =
        { coll := cleanedOf st2v.coll (Uuid.v4 st.nextMemId), cache := st2v.cache,
          clock := st2v.clock, nextMemId := st2v.nextMemId } from rfl]
    rw [hcleaned2]
    rfl
  have hmidNotIn : mid ∉ (residualOf st mid).map Prod.fst := mid_not_in_residual st mid
  have hupF : upsertPoint (residualOf st mid) mid (updSinglePayload st mid X existing) =
      residualOf st mid ++ [(mid, updSinglePayload st mid X existing)] :=
    upsertPoint_of_not_mem hmidNotIn _
  unfold updateContentPath
  simp only []
  rw [hst1]
  simp only [Option.getD_none]
  rw [store_single_eq cfg stA X existing.tags existing.importance hlen]
  rw [← hst2v]
  simp only []
  rw [hst3]
  simp only []
  rw [if_neg hlen]
  have hume :
      ({ id := mid, content := X, createdAt := existing.createdAt, updatedAt := st.clock + 1,
         accessedAt := st.clock + 1, accessCount := 0, importance := existing.importance,
         tags := existing.tags } : MemoryItem) = updMemoryOf st mid X existing := rfl
  rw [hume]
  have hpl :
      ({ (updMemoryOf st mid X existing).toPayload with isChunk := false, parentId := some mid } : Payload) = updSinglePayload st mid X existing := rfl
  rw [hpl, hupF]
  rfl


theorem chunkUuid_mid_not_in_cleaned {st : MMState} {mid : Uuid}
    (hwfp : ∀ pr ∈ st.coll,
      usesV4Below pr.1 st.nextMemId = true ∧ parentBelow pr.2 st.nextMemId = true ∧
      chunkParentOK pr.1 pr.2 = true) (k : Nat) :
    chunkUuid mid k ∉ (cleanedOf st.coll mid).map Prod.fst := by
  intro hmem
  rcases List.mem_map.mp hmem with ⟨pr, hpr, hfst⟩
  have hok := (cleanedOf_facts hwfp pr hpr).2.2
  rw [hfst] at hok
  simp only [chunkUuid, chunkParentOK, decide_eq_true_eq] at hok
  exact (mem_cleanedOf.mp hpr).2.2 hok

theorem mid_not_in_cleaned {coll : List (Uuid × Payload)} {mid : Uuid} :
    mid ∉ (cleanedOf coll mid).map Prod.fst := by
  intro hmem
  rcases List.mem_map.mp hmem with ⟨pr, hpr, hfst⟩
  exact (mem_cleanedOf.mp hpr).2.1 hfst

theorem chunks_head_index {chunks : List TextChunk}
    (hidx : chunks.map (fun c => c.chunkIndex) = List.range chunks.length)
    (hne : chunks ≠ []) : ∃ c0 rest, chunks = c0 :: rest ∧ c0.chunkIndex = 0 := by
  cases chunks with
  | nil => exact absurd rfl hne
  | cons c0 rest =>
      refine ⟨c0, rest, rfl, ?_⟩
      simp only [List.map_cons, List.length_cons] at hidx
      rw [List.range_succ_eq_map] at hidx
      exact ((List.cons.injEq _ _ _ _).mp hidx).1

/-- A memory `get` resolves was stored before the current fresh draw: its id
only mentions uuid4 draws below `next_mem_id`.  Each of the three lookup
routes (cache, direct point, chunk 0) lands on a well-formed key. -/
theorem get_some_v4below {st : MMState} {mid : Uuid} {m : MemoryItem}
    (hwf : WFState st) (hget : MemoryManager.get st mid = some m) :
    usesV4Below mid st.nextMemId = true := by
  obtain ⟨⟨hnd, hwfp⟩, hwfc⟩ := hwf
  unfold MemoryManager.get at hget
  cases hc : plookup st.cache mid with
  | some item => exact hwfc (mid, item) (plookup_mem_of_eq_some hc)
  | none =>
      rw [hc] at hget
      cases hd : plookup st.coll mid with
      | some p => exact (hwfp (mid, p) (plookup_mem_of_eq_some hd)).1
      | none =>
          rw [hd] at hget
          cases hk : plookup st.coll (chunkUuid mid 0) with
          | some p =>
              have h1 := (hwfp (chunkUuid mid 0, p) (plookup_mem_of_eq_some hk)).1
              rwa [usesV4Below_chunkUuid] at h1
          | none =>
              rw [hk] at hget
              exact Option.noConfusion hget

/-- A point of an upserted batch comes from the base collection or from the
batch itself. -/
theorem mem_upsertBatch (pts : List (Uuid × Payload)) :
    ∀ (coll : List (Uuid × Payload)) (pr : Uuid × Payload),
      pr ∈ upsertBatch coll pts → pr ∈ coll ∨ pr ∈ pts := by
  induction pts with
  | nil => intro coll pr h; exact Or.inl h
  | cons p rest ih =>
      intro coll pr h
      have h1 : pr ∈ upsertPoint coll p.1 p.2 ∨ pr ∈ rest :=
        ih (upsertPoint coll p.1 p.2) pr h
      rcases h1 with h2 | h2
      · unfold upsertPoint at h2
        split at h2
        · rcases List.mem_map.mp h2 with ⟨q, hq, hqe⟩
          by_cases hk : q.1 = p.1
          · rw [if_pos hk] at hqe
            right
            rw [← hqe, Prod.mk.eta]
            exact List.mem_cons_self p rest
          · rw [if_neg hk] at hqe
            exact Or.inl (hqe ▸ hq)
        · rcases List.mem_append.mp h2 with hcl | hsing
          · exact Or.inl hcl
          · right
            simp only [List.mem_singleton] at hsing
            rw [hsing, Prod.mk.eta]
            exact List.mem_cons_self p rest
      · exact Or.inr (List.mem_cons_of_mem p h2)

/-! ## Claim C2: content update re-chunks under the original id -/

/-- The C2 property for `update(mid, content=X)` ending in `(st', r)`: every
surviving point of the memory carries the new content and the original
`created_at` (chunk points under deterministic chunk ids with
`parent_id = mid` when `|X| > chunk_size`, else the single point `mid`), the
expected points are present, and a subsequent `get` returns the new content
with the pre-update `created_at`. -/
def C2Conclusion (cfg : MMConfig) (mid : Uuid) (X : String) (existing : MemoryItem)
    (st' : MMState) (r : Option MemoryItem) : Prop :=
  (∀ pr ∈ st'.coll, (pr.1 = mid ∨ pr.2.parentId = some mid) →
      pr.2.createdAt = existing.createdAt ∧
      (X.length > cfg.chunkSize →
        pr.2.fullContent = some X ∧ pr.2.parentId = some mid ∧
        ∃ i, pr.1 = chunkUuid mid i) ∧
      (¬(X.length > cfg.chunkSize) → pr.1 = mid ∧ pr.2.content = X)) ∧
  (∀ chunks, TextChunker.chunk cfg.chunkCfg X = some chunks → X.length > cfg.chunkSize →
      ∀ ch ∈ chunks, ∃ p, (chunkUuid mid ch.chunkIndex, p) ∈ st'.coll ∧
        p.content = ch.text ∧ p.fullContent = some X ∧ p.parentId = some mid ∧
        p.createdAt = existing.createdAt) ∧
  (¬(X.length > cfg.chunkSize) →
      ∃ p, (mid, p) ∈ st'.coll ∧ p.content = X ∧ p.createdAt = existing.createdAt) ∧
  (∃ m, MemoryManager.get st' mid = some m ∧ m.content = X ∧
      m.createdAt = existing.createdAt ∧ r = some m)

theorem update_content_branch (cfg : MMConfig) (st : MMState) (mid : Uuid) (X : String)
    {existing : MemoryItem}
    (hget : MemoryManager.get st mid = some existing)
    (hne : X ≠ "") (hdiff : X ≠ existing.content)
    (tags : Option (List String)) (importance : Option ℚ) :
    MemoryManager.update cfg st mid (some X) tags importance =
      updateContentPath cfg st mid X existing tags importance := by
  unfold MemoryManager.update
  rw [hget]
  simp only []
  rw [if_pos ⟨hne, hdiff⟩]

theorem get_updSingleState (st : MMState) (mid : Uuid) (X : String) (existing : MemoryItem) :
    MemoryManager.get (updSingleState st mid X existing) mid =
      some (updMemoryOf st mid X existing) := by
  have hcache : plookup (updSingleState st mid X existing).cache mid = none := by
    unfold updSingleState updCacheOf cacheInvalidate
    simp only []
    exact plookup_filter_ne _ _
  have hdirect : plookup (updSingleState st mid X existing).coll mid =
      some (updSinglePayload st mid X existing) := by
    unfold updSingleState updSingleColl
    simp only []
    rw [plookup_append_right _ _ _ mid_not_in_cleaned]
    simp [plookup]
  unfold MemoryManager.get
  rw [hcache, hdirect]
  rfl

/-- C2 (amended).  For `update(mid, content=X)` on a well-formed state, with
`X` non-empty and different from the stored content, provided the memory's
existing point set fits one scroll page (at most 1000 points carry its
`parent_id`) and, when `|X| > chunk_size`, the chunker yields at least one
chunk: every point of the memory carries the new content under the original
id (chunk ids when chunked, the single direct point otherwise), with
`created_at` preserved, and the subsequent `get` returns content `X` with the
pre-update `created_at`.  No bound on the chunk count is needed: temporary
points a large store leaves behind carry the temporary parent id, not `mid`. -/
theorem update_content_spec
    (cfg : MMConfig) (st : MMState) (mid : Uuid) (X : String) (existing : MemoryItem)
    (st' : MMState) (r : Option MemoryItem)
    (hwf : WFState st)
    (hget : MemoryManager.get st mid = some existing)
    (hne : X ≠ "") (hdiff : X ≠ existing.content)
    (hcount : (st.coll.filter (fun pr => pr.2.parentId = some mid)).length ≤ 1000)
    (hchunks : X.length > cfg.chunkSize →
      ∃ chunks, TextChunker.chunk cfg.chunkCfg X = some chunks ∧ chunks ≠ [])
    (hupd : MemoryManager.update cfg st mid (some X) none none = some (st', r)) :
    C2Conclusion cfg mid X existing st' r := by
  obtain ⟨⟨hnd, hwfp⟩, hwfc⟩ := hwf
  have hmidv4 : usesV4Below mid st.nextMemId = true :=
    get_some_v4below ⟨⟨hnd, hwfp⟩, hwfc⟩ hget
  have hmidne : mid ≠ Uuid.v4 st.nextMemId := by
    intro he
    rw [he, usesV4Below_v4_self] at hmidv4
    cases hmidv4
  rw [update_content_branch cfg st mid X hget hne hdiff none none] at hupd
  by_cases hlen : X.length > cfg.chunkSize
  · obtain ⟨chunks, hchunk, hne0⟩ := hchunks hlen
    rw [updateContentPath_chunked_eq cfg st mid X existing chunks ⟨⟨hnd, hwfp⟩, hwfc⟩
      hlen hchunk] at hupd
    have hpair := Option.some_inj.mp hupd
    have hst' : updChunkedStateG st mid X existing chunks = st' := congrArg Prod.fst hpair
    have hr : MemoryManager.get (updChunkedStateG st mid X existing chunks) mid = r :=
      congrArg Prod.snd hpair
    subst hst'
    subst hr
    have hidx := chunk_indices hchunk
    have htempShape : ∀ pr ∈ (tempPtsOf st X existing chunks).drop 1000,
        (∃ i, pr.1 = chunkUuid (Uuid.v4 st.nextMemId) i) ∧
        pr.2.parentId = some (Uuid.v4 st.nextMemId) := by
      intro pr hpr
      have hmemT : pr ∈ tempPtsOf st X existing chunks := List.mem_of_mem_drop hpr
      rcases List.mem_map.mp hmemT with ⟨ch, _, rfl⟩
      exact ⟨⟨ch.chunkIndex, rfl⟩, rfl⟩
    have hmidnotchunk : ∀ i : Nat, mid ≠ chunkUuid (Uuid.v4 st.nextMemId) i := by
      intro i he
      rw [he, usesV4Below_chunkUuid, usesV4Below_v4_self] at hmidv4
      cases hmidv4
    have hchunkne : ∀ (j i : Nat), chunkUuid mid j ≠ chunkUuid (Uuid.v4 st.nextMemId) i := by
      intro j i he
      exact hmidne ((Uuid.v5chunk.injEq _ _ _ _).mp he).1
    set finalPts := chunks.map (fun ch =>
      (chunkUuid mid ch.chunkIndex,
       chunkPayload (updMemoryOf st mid X existing).toPayload X mid chunks.length ch))
      with hfinalPts
    have hfinalNodup : (finalPts.map Prod.fst).Nodup := chunk_pts_nodup _ _ _ hidx
    have hfinalDisj : ∀ i ∈ finalPts.map Prod.fst,
        i ∉ ((cleanedOf st.coll mid ++
          (tempPtsOf st X existing chunks).drop 1000).map Prod.fst) := by
      intro i hi hmem
      rw [hfinalPts, chunk_ids_map] at hi
      rcases List.mem_map.mp hi with ⟨k, _, rfl⟩
      rw [List.map_append] at hmem
      rcases List.mem_append.mp hmem with hc | ht
      · exact chunkUuid_mid_not_in_cleaned hwfp k hc
      · rcases List.mem_map.mp ht with ⟨pr, hpr, hfst⟩
        obtain ⟨⟨i0, hi0⟩, _⟩ := htempShape pr hpr
        rw [hi0] at hfst
        exact hchunkne k i0 hfst.symm
    have hcoll : (updChunkedStateG st mid X existing chunks).coll =
        (cleanedOf st.coll mid ++ (tempPtsOf st X existing chunks).drop 1000) ++
          finalPts := by
      show upsertBatch (residualOf st mid ++ (tempPtsOf st X existing chunks).drop 1000)
        finalPts = _
      rw [residual_eq_cleaned hnd hcount]
      exact upsertBatch_of_disjoint finalPts _ hfinalDisj hfinalNodup
    obtain ⟨c0, rest, hcons, hc0⟩ := chunks_head_index hidx hne0
    have hcache : plookup (updChunkedStateG st mid X existing chunks).cache mid = none := by
      show plookup (updCacheOf st mid X existing) mid = none
      unfold updCacheOf cacheInvalidate
      exact plookup_filter_ne _ _
    have hnotmid : mid ∉ ((cleanedOf st.coll mid ++
        (tempPtsOf st X existing chunks).drop 1000).map Prod.fst) := by
      rw [List.map_append]
      intro hmem
      rcases List.mem_append.mp hmem with hc | ht
      · exact mid_not_in_cleaned hc
      · rcases List.mem_map.mp ht with ⟨pr, hpr, hfst⟩
        obtain ⟨⟨i0, hi0⟩, _⟩ := htempShape pr hpr
        rw [hi0] at hfst
        exact hmidnotchunk i0 hfst.symm
    have hdirect : plookup (updChunkedStateG st mid X existing chunks).coll mid = none := by
      rw [hcoll, plookup_append_right _ _ _ hnotmid, plookup_eq_none_iff]
      intro hmem
      rw [hfinalPts, chunk_ids_map, hidx] at hmem
      rcases List.mem_map.mp hmem with ⟨k, _, hk⟩
      exact chunkUuid_ne_parent mid k hk
    have hnotch0 : chunkUuid mid 0 ∉ ((cleanedOf st.coll mid ++
        (tempPtsOf st X existing chunks).drop 1000).map Prod.fst) := by
      rw [List.map_append]
      intro hmem
      rcases List.mem_append.mp hmem with hc | ht
      · exact chunkUuid_mid_not_in_cleaned hwfp 0 hc
      · rcases List.mem_map.mp ht with ⟨pr, hpr, hfst⟩
        obtain ⟨⟨i0, hi0⟩, _⟩ := htempShape pr hpr
        rw [hi0] at hfst
        exact hchunkne 0 i0 hfst.symm
    have hchunk0 :
        plookup (updChunkedStateG st mid X existing chunks).coll (chunkUuid mid 0) =
          some (chunkPayload (updMemoryOf st mid X existing).toPayload X mid
            chunks.length c0) := by
      rw [hcoll, plookup_append_right _ _ _ hnotch0]
      rw [hfinalPts, hcons]
      simp only [List.map_cons]
      rw [hc0]
      simp [plookup]
    have hgetG : MemoryManager.get (updChunkedStateG st mid X existing chunks) mid =
        some (updMemoryOf st mid X existing) := by
      unfold MemoryManager.get
      rw [hcache, hdirect, hchunk0]
      rfl
    refine ⟨?_, ?_, ?_, ?_⟩
    · intro pr hpr hrel
      rcases List.mem_append.mp (hcoll ▸ hpr) with h12 | hf
      · rcases List.mem_append.mp h12 with hc | ht
        · obtain ⟨_, hne1, hne2⟩ := mem_cleanedOf.mp hc
          rcases hrel with h | h
          · exact absurd h hne1
          · exact absurd h hne2
        · obtain ⟨⟨i0, hi0⟩, hpar⟩ := htempShape pr ht
          rcases hrel with h | h
          · rw [hi0] at h
            exact absurd h.symm (hmidnotchunk i0)
          · rw [hpar] at h
            exact absurd (Option.some_inj.mp h).symm hmidne
      · rw [hfinalPts] at hf
        rcases List.mem_map.mp hf with ⟨ch, _, rfl⟩
        refine ⟨rfl, fun _ => ⟨rfl, rfl, ⟨ch.chunkIndex, rfl⟩⟩, fun hcon => absurd hlen hcon⟩
    · intro chunks' hchunk' _
      rw [hchunk] at hchunk'
      have hcc : chunks = chunks' := Option.some_inj.mp hchunk'
      subst hcc
      intro ch hch
      refine ⟨chunkPayload (updMemoryOf st mid X existing).toPayload X mid chunks.length ch,
        ?_, rfl, rfl, rfl, rfl⟩
      rw [hcoll]
      refine List.mem_append_right _ ?_
      rw [hfinalPts]
      exact List.mem_map.mpr ⟨ch, hch, rfl⟩
    · intro hcon
      exact absurd hlen hcon
    · exact ⟨updMemoryOf st mid X existing, hgetG, rfl, rfl, hgetG⟩
  · rw [updateContentPath_single_eq cfg st mid X existing ⟨⟨hnd, hwfp⟩, hwfc⟩ hlen] at hupd
    have hpair := Option.some_inj.mp hupd
    have hst' : updSingleStateG st mid X existing = st' := congrArg Prod.fst hpair
    have hr : MemoryManager.get (updSingleStateG st mid X existing) mid = r :=
      congrArg Prod.snd hpair
    subst hst'
    subst hr
    have hSeq : updSingleStateG st mid X existing = updSingleState st mid X existing := by
      unfold updSingleStateG updSingleState updSingleCollG updSingleColl
      rw [residual_eq_cleaned hnd hcount]
    rw [hSeq]
    refine ⟨?_, ?_, ?_, ?_⟩
    · intro pr hpr hrel
      have hmem : pr ∈ cleanedOf st.coll mid ∨
          pr ∈ [(mid, updSinglePayload st mid X existing)] := by
        have hmem0 : pr ∈ cleanedOf st.coll mid ++
            [(mid, updSinglePayload st mid X existing)] := hpr
        exact List.mem_append.mp hmem0
      rcases hmem with hc | hf
      · obtain ⟨_, hne1, hne2⟩ := mem_cleanedOf.mp hc
        rcases hrel with h | h
        · exact absurd h hne1
        · exact absurd h hne2
      · simp only [List.mem_singleton] at hf
        subst hf
        exact ⟨rfl, fun hcon => absurd hcon hlen, fun _ => ⟨rfl, rfl⟩⟩
    · intro chunks' _ hcon
      exact absurd hcon hlen
    · intro _
      refine ⟨updSinglePayload st mid X existing, ?_, rfl, rfl⟩
      exact List.mem_append_right _ (List.mem_singleton_self _)
    · exact ⟨updMemoryOf st mid X existing, get_updSingleState st mid X existing, rfl, rfl,
        get_updSingleState st mid X existing⟩


def c2wPl : Payload :=
  { content := "old", createdAt := 5, updatedAt := 5, accessedAt := some 5,
    importance := 1, parentId := some (Uuid.v4 0) }

def c2wState : MMState :=
  { coll := [(Uuid.v4 0, c2wPl)], cache := [], clock := 10, nextMemId := 1 }

def c2wExisting : MemoryItem :=
  { id := Uuid.v4 0, content := "old", createdAt := 5, updatedAt := 5, accessedAt := 5,
    importance := 1 }

theorem update_content_witness :
    WFState c2wState ∧
    C2Conclusion {} (Uuid.v4 0) "new" c2wExisting
      (updSingleState c2wState (Uuid.v4 0) "new" c2wExisting)
      (MemoryManager.get (updSingleState c2wState (Uuid.v4 0) "new" c2wExisting) (Uuid.v4 0)) :=
  ⟨by decide,
   update_content_spec {} c2wState (Uuid.v4 0) "new" c2wExisting _ _
     (by decide) (by decide) (by decide) (by decide) (by decide)
     (fun h => absurd h (by decide)) (by decide)⟩

/-- The update call of the counterexample: content `"ab    "` exceeds the
chunk size of 5 but normalises/strips to a fragment shorter than
`min_chunk_size`, so the chunker yields zero chunks. -/
def c2ceRes : Option (MMState × Option MemoryItem) :=
  MemoryManager.update { chunkSize := 5, chunkOverlap := 0 } c2wState (Uuid.v4 0)
    (some "ab    ") none none

theorem update_content_counterexample :
    MemoryManager.get c2wState (Uuid.v4 0) = some c2wExisting ∧
    "ab    " ≠ c2wExisting.content ∧ ("ab    " : String).length > 5 ∧
    c2ceRes.map Prod.snd = some none ∧
    c2ceRes.map (fun pr => MemoryManager.get pr.1 (Uuid.v4 0)) = some none := by
  decide


theorem plookup_updCacheOf_temp (st : MMState) (mid : Uuid) (X : String)
    (existing : MemoryItem)
    (hwfc : ∀ pr ∈ st.cache, usesV4Below pr.1 st.nextMemId = true)
    (hmid : usesV4Below mid st.nextMemId = true) :
    plookup (updCacheOf st mid X existing) (Uuid.v4 st.nextMemId) =
      some (tempMemOf st X existing) := by
  have htm : Uuid.v4 st.nextMemId ≠ mid := by
    intro he
    rw [← he, usesV4Below_v4_self] at hmid
    cases hmid
  unfold updCacheOf cacheInvalidate
  rw [plookup_cacheInvalidate_other _ mid _ htm]
  apply plookup_lruPut_self
  intro hmem
  rcases List.mem_map.mp hmem with ⟨pr, hpr, hfst⟩
  have := hwfc pr hpr
  rw [hfst, usesV4Below_v4_self] at this
  cases this

/-- The leak the implicit claim describes: after a content update, the fresh
temporary uuid4 still resolves through the working-memory cache even though no
vector-store point is keyed by it or parented to it. -/
def C10Conclusion (st st' : MMState) (X : String) : Prop :=
  (∃ item, MemoryManager.get st' (Uuid.v4 st.nextMemId) = some item ∧ item.content = X) ∧
  ∀ pr ∈ st'.coll, pr.1 ≠ Uuid.v4 st.nextMemId ∧ pr.2.parentId ≠ some (Uuid.v4 st.nextMemId)

/-- C10 (amended).  A content update stores under a fresh temporary uuid4,
deletes that uuid's points, but only invalidates the original id's cache
entry: afterwards `get` on the temporary id always answers from the
working-memory cache with the new content.  The vector store holds no point
with that id or parent provided that, when `|X| > chunk_size`, the chunker
yields at most 1000 chunks — one scroll page of the temporary delete;
beyond that the delete is partial (see the counterexample). -/
theorem update_temp_cache_leak
    (cfg : MMConfig) (st : MMState) (mid : Uuid) (X : String) (existing : MemoryItem)
    (st' : MMState) (r : Option MemoryItem)
    (hwf : WFState st)
    (hget : MemoryManager.get st mid = some existing)
    (hne : X ≠ "") (hdiff : X ≠ existing.content)
    (hchunks : X.length > cfg.chunkSize →
      ∃ chunks, TextChunker.chunk cfg.chunkCfg X = some chunks ∧ chunks.length ≤ 1000)
    (hupd : MemoryManager.update cfg st mid (some X) none none = some (st', r)) :
    C10Conclusion st st' X := by
  obtain ⟨⟨hnd, hwfp⟩, hwfc⟩ := hwf
  have hmid : usesV4Below mid st.nextMemId = true :=
    get_some_v4below ⟨⟨hnd, hwfp⟩, hwfc⟩ hget
  have hmidne : mid ≠ Uuid.v4 st.nextMemId := by
    intro he
    rw [he, usesV4Below_v4_self] at hmid
    cases hmid
  have hfreshR := @fresh_not_rel (residualOf st mid) st.nextMemId
    (fun pr hpr => hwfp pr (mem_residualOf_sub hpr))
  rw [update_content_branch cfg st mid X hget hne hdiff none none] at hupd
  by_cases hlen : X.length > cfg.chunkSize
  · obtain ⟨chunks, hchunk, hbound⟩ := hchunks hlen
    rw [updateContentPath_chunked_eq cfg st mid X existing chunks ⟨⟨hnd, hwfp⟩, hwfc⟩
      hlen hchunk] at hupd
    have hst' : updChunkedStateG st mid X existing chunks = st' :=
      congrArg Prod.fst (Option.some_inj.mp hupd)
    subst hst'
    have hcache : plookup (updChunkedStateG st mid X existing chunks).cache
        (Uuid.v4 st.nextMemId) = some (tempMemOf st X existing) :=
      plookup_updCacheOf_temp st mid X existing hwfc hmid
    have hdropnil : (tempPtsOf st X existing chunks).drop 1000 = [] := by
      apply List.drop_eq_nil_of_le
      simp only [tempPtsOf, List.length_map]
      exact hbound
    have hcoll : (updChunkedStateG st mid X existing chunks).coll =
        upsertBatch (residualOf st mid) (chunks.map (fun ch =>
          (chunkUuid mid ch.chunkIndex,
           chunkPayload (updMemoryOf st mid X existing).toPayload X mid
             chunks.length ch))) := by
      show upsertBatch (residualOf st mid ++ (tempPtsOf st X existing chunks).drop 1000)
          (chunks.map (fun ch =>
            (chunkUuid mid ch.chunkIndex,
             chunkPayload (updMemoryOf st mid X existing).toPayload X mid
               chunks.length ch))) =
        upsertBatch (residualOf st mid) (chunks.map (fun ch =>
          (chunkUuid mid ch.chunkIndex,
           chunkPayload (updMemoryOf st mid X existing).toPayload X mid
             chunks.length ch)))
      rw [hdropnil, List.append_nil]
    constructor
    · refine ⟨{ tempMemOf st X existing with id := Uuid.v4 st.nextMemId }, ?_, rfl⟩
      unfold MemoryManager.get
      rw [hcache]
    · intro pr hpr
      rcases mem_upsertBatch _ _ pr (hcoll ▸ hpr) with h | h
      · exact hfreshR pr h
      · rcases List.mem_map.mp h with ⟨ch, _, rfl⟩
        refine ⟨fun he => Uuid.noConfusion he, ?_⟩
        simp only [chunkPayload]
        exact fun he => hmidne (Option.some_inj.mp he)
  · rw [updateContentPath_single_eq cfg st mid X existing ⟨⟨hnd, hwfp⟩, hwfc⟩ hlen] at hupd
    have hst' : updSingleStateG st mid X existing = st' :=
      congrArg Prod.fst (Option.some_inj.mp hupd)
    subst hst'
    have hcache : plookup (updSingleStateG st mid X existing).cache
        (Uuid.v4 st.nextMemId) = some (tempMemOf st X existing) :=
      plookup_updCacheOf_temp st mid X existing hwfc hmid
    constructor
    · refine ⟨{ tempMemOf st X existing with id := Uuid.v4 st.nextMemId }, ?_, rfl⟩
      unfold MemoryManager.get
      rw [hcache]
    · intro pr hpr
      have hmem : pr ∈ residualOf st mid ∨
          pr ∈ [(mid, updSinglePayload st mid X existing)] := List.mem_append.mp hpr
      rcases hmem with hc | hf
      · exact hfreshR pr hc
      · simp only [List.mem_singleton] at hf
        subst hf
        refine ⟨hmidne, ?_⟩
        simp only [updSinglePayload]
        exact fun he => hmidne (Option.some_inj.mp he)

theorem update_temp_cache_leak_witness :
    WFState c2wState ∧
    C10Conclusion c2wState (updSingleStateG c2wState (Uuid.v4 0) "new" c2wExisting) "new" :=
  ⟨by decide,
   update_temp_cache_leak {} c2wState (Uuid.v4 0) "new" c2wExisting
     (updSingleStateG c2wState (Uuid.v4 0) "new" c2wExisting)
     (MemoryManager.get (updSingleStateG c2wState (Uuid.v4 0) "new" c2wExisting) (Uuid.v4 0))
     (by decide) (by decide) (by decide) (by decide)
     (fun h => absurd h (by decide)) (by decide)⟩

/-- The payload of temporary chunk `i` in the 1001-chunk counterexample: a
freshly stored chunk point whose `parent_id` is the temporary uuid4
`Uuid.v4 1`. -/
def c10pl (i : Nat) : Payload :=
  { content := "c", fullContent := some "f", createdAt := 0, updatedAt := 0,
    isChunk := true, parentId := some (Uuid.v4 1), chunkIndex := i, chunkCount := 1001 }

/-- The store state just after `update`'s internal `store` wrote 1001
temporary chunk points under the fresh uuid4 `Uuid.v4 1` — what content that
chunks into 1001 pieces produces (at least ~50KB, `min_chunk_size = 50`). -/
def c10ceState : MMState :=
  { coll := (List.range 1001).map (fun i => (chunkUuid (Uuid.v4 1) i, c10pl i))
    cache := []
    clock := 1
    nextMemId := 2 }

theorem c10CE_scroll : scrollByParent c10ceState.coll (Uuid.v4 1) 1000 =
    (List.range 1000).map (fun i => (chunkUuid (Uuid.v4 1) i, c10pl i)) := by
  unfold scrollByParent c10ceState
  simp only
  rw [List.filter_eq_self.mpr]
  · rw [← List.map_take]
    rw [List.take_range]
    norm_num
  · intro pr hpr
    rcases List.mem_map.mp hpr with ⟨i, _, rfl⟩
    simp [c10pl]

theorem c10CE_pids_not_mem :
    chunkUuid (Uuid.v4 1) 1000 ∉ getMemoryPointIds c10ceState (Uuid.v4 1) := by
  intro hmem
  have hrw : getMemoryPointIds c10ceState (Uuid.v4 1) =
      (scrollByParent c10ceState.coll (Uuid.v4 1) 1000).foldl
        (fun ids cr => if cr.1 ∈ ids then ids else ids ++ [cr.1])
        (if (plookup c10ceState.coll (Uuid.v4 1)).isSome then [Uuid.v4 1] else []) := rfl
  rw [hrw, c10CE_scroll, foldlDedup_mem] at hmem
  have hdirect : plookup c10ceState.coll (Uuid.v4 1) = none := by
    rw [plookup_eq_none_iff]
    intro hmem2
    rcases List.mem_map.mp hmem2 with ⟨pr, hpr, hfst⟩
    rcases List.mem_map.mp hpr with ⟨i, _, rfl⟩
    exact Uuid.noConfusion hfst
  rw [hdirect] at hmem
  rcases hmem with h1 | h2
  · simp at h1
  · rw [List.map_map] at h2
    rcases List.mem_map.mp h2 with ⟨i, hi, heq⟩
    simp only [Function.comp] at heq
    have hieq : i = 1000 := by
      have hinj := (Uuid.v5chunk.injEq _ _ _ _).mp heq
      exact hinj.2
    subst hieq
    exact absurd (List.mem_range.mp hi) (by norm_num)

/-- C10 counterexample.  The temporary-point deletion `update` performs
(`_delete_memory_points` on the fresh temporary uuid4) reads a single
`scroll(limit=1000)` page: on a store holding 1001 freshly written temporary
chunk points — what `store` produces inside `update` when the new content
chunks into 1001 pieces — a point whose `parent_id` is the temporary uuid
survives the delete, so the claim's "no remaining point carries that id or
that `parent_id`" fails for large content. -/
theorem update_temp_cache_leak_counterexample :
    (chunkUuid (Uuid.v4 1) 1000, c10pl 1000) ∈
      (deleteMemoryPoints c10ceState (Uuid.v4 1)).2.coll ∧
    (c10pl 1000).parentId = some (Uuid.v4 1) := by
  constructor
  · have hcoll : (deleteMemoryPoints c10ceState (Uuid.v4 1)).2.coll =
        deleteByIds c10ceState.coll (getMemoryPointIds c10ceState (Uuid.v4 1)) := by
      unfold deleteMemoryPoints
      simp only []
    rw [hcoll]
    unfold deleteByIds
    refine List.mem_filter.mpr ⟨?_, ?_⟩
    · refine List.mem_map.mpr ⟨1000, ?_, rfl⟩
      exact List.mem_range.mpr (by norm_num)
    · exact decide_eq_true c10CE_pids_not_mem
  · rfl


/-! ## Boost-on-access (consolidation.py, `boost_on_access`, lines 340-398)

The accessed point's payload supplies the boosted importance, the incremented
access count and the new access timestamp; the same merge payload is applied
to the accessed point and then to every sibling found by one
`scroll(limit=1000)` on the `parent_id` filter. -/

/-- The `boost_payload` dict (importance / access_count / accessed_at merged
onto the existing payload). -/
def boostUpd (imp : ℚ) (cnt : Nat) (now : Int) (p : Payload) : Payload :=
  { p with importance := imp, accessCount := cnt, accessedAt := some now }

/-- `MemoryConsolidator.boost_on_access`: returns the updated collection and
the returned importance; `0` when the point does not exist (`return 0.0`). -/
def boostOnAccess (coll : List (Uuid × Payload)) (mid : Uuid) (boost maxImp : ℚ)
    (now : Int) : List (Uuid × Payload) × ℚ :=
  match plookup coll mid with
  | none => (coll, 0)
  | some p =>
      if p.isChunk then
        ((scrollByParent
            (updatePayloadAt coll mid
              (boostUpd (min maxImp (p.importance + boost)) (p.accessCount + 1) now))
            (p.parentId.getD mid) 1000).foldl
          (fun c sib => if sib.1 ≠ mid then
            updatePayloadAt c sib.1
              (boostUpd (min maxImp (p.importance + boost)) (p.accessCount + 1) now)
            else c)
          (updatePayloadAt coll mid
            (boostUpd (min maxImp (p.importance + boost)) (p.accessCount + 1) now)),
         min maxImp (p.importance + boost))
      else
        (updatePayloadAt coll mid
          (boostUpd (min maxImp (p.importance + boost)) (p.accessCount + 1) now),
         min maxImp (p.importance + boost))

/-- The three payload fields the boost merge sets. -/
def BFields (imp : ℚ) (cnt : Nat) (now : Int) (q : Payload) : Prop :=
  q.importance = imp ∧ q.accessCount = cnt ∧ q.accessedAt = some now

theorem BFields_boostUpd (imp : ℚ) (cnt : Nat) (now : Int) (q : Payload) :
    BFields imp cnt now (boostUpd imp cnt now q) := ⟨rfl, rfl, rfl⟩

theorem boost_fold_mem (pid mid : Uuid) (imp : ℚ) (cnt : Nat) (now : Int) :
    ∀ (sibs c : List (Uuid × Payload)),
      (∀ pr ∈ c, pr.2.parentId = some pid →
        (BFields imp cnt now pr.2 ∨ (pr.1 ≠ mid ∧ ∃ q, (pr.1, q) ∈ sibs))) →
      ∀ pr ∈ sibs.foldl (fun c sib =>
          if sib.1 ≠ mid then updatePayloadAt c sib.1 (boostUpd imp cnt now) else c) c,
        pr.2.parentId = some pid → BFields imp cnt now pr.2 := by
  intro sibs
  induction sibs with
  | nil =>
      intro c hinv pr hpr hp
      rcases hinv pr hpr hp with h | ⟨_, q, hq⟩
      · exact h
      · cases hq
  | cons sib rest ih =>
      intro c hinv pr hpr hp
      rw [List.foldl_cons] at hpr
      refine ih _ ?_ pr hpr hp
      intro pr1 hpr1 hp1
      by_cases hs : sib.1 = mid
      · rw [if_neg (fun hn => hn hs)] at hpr1
        rcases hinv pr1 hpr1 hp1 with h | ⟨hne, q, hq⟩
        · exact Or.inl h
        · rcases List.mem_cons.mp hq with he | ht
          · exact absurd ((congrArg Prod.fst he).trans hs) hne
          · exact Or.inr ⟨hne, q, ht⟩
      · rw [if_pos hs] at hpr1
        rcases List.mem_map.mp hpr1 with ⟨pr0, hpr0, heq⟩
        by_cases hk : pr0.1 = sib.1
        · rw [if_pos hk] at heq
          rw [← heq]
          exact Or.inl (BFields_boostUpd _ _ _ _)
        · rw [if_neg hk] at heq
          subst heq
          rcases hinv pr0 hpr0 hp1 with h | ⟨hne, q, hq⟩
          · exact Or.inl h
          · rcases List.mem_cons.mp hq with he | ht
            · exact absurd (congrArg Prod.fst he) hk
            · exact Or.inr ⟨hne, q, ht⟩

/-- The property C4 asserts of `boost_on_access` on a chunk point: the
returned value is the boosted importance, and every chunk of the accessed
memory ends up with the boosted importance, the incremented access count and
the new access timestamp. -/
def BoostOK (coll : List (Uuid × Payload)) (mid : Uuid) (boost maxImp : ℚ)
    (now : Int) : Prop :=
  ∀ p, plookup coll mid = some p → p.isChunk = true → ∀ pid, p.parentId = some pid →
    (boostOnAccess coll mid boost maxImp now).2 = min maxImp (p.importance + boost) ∧
    ∀ pr ∈ (boostOnAccess coll mid boost maxImp now).1,
      pr.2.parentId = some pid →
        pr.2.importance = min maxImp (p.importance + boost) ∧
        pr.2.accessCount = p.accessCount + 1 ∧
        pr.2.accessedAt = some now

/-- A boost merge payload leaves `parent_id` alone, so the sibling filter
counts the same points before and after the accessed point's update. -/
theorem filter_parent_updatePayloadAt (c : List (Uuid × Payload)) (k : Uuid)
    (imp : ℚ) (cnt : Nat) (now : Int) (pid : Uuid) :
    ((updatePayloadAt c k (boostUpd imp cnt now)).filter
        (fun pr => pr.2.parentId = some pid)).length =
      (c.filter (fun pr => pr.2.parentId = some pid)).length := by
  unfold updatePayloadAt
  rw [List.filter_map, List.length_map]
  congr 1
  apply List.filter_congr
  intro pr _
  by_cases hk : pr.1 = k
  · simp [Function.comp, hk, boostUpd]
  · simp [Function.comp, hk]

/-- C4 (amended).  When the accessed memory's chunk points fit a single
`scroll(limit=1000)` page — at most 1000 points carry its `parent_id` —
boosting any chunk leaves all of that memory's chunks with identical
importance (`min(max, accessed importance + boost)`), access count and access
timestamp, however large the rest of the collection is. -/
theorem boost_propagates_spec (coll : List (Uuid × Payload)) (mid : Uuid)
    (boost maxImp : ℚ) (now : Int) (p : Payload) (pid : Uuid)
    (hp : plookup coll mid = some p) (hchunk : p.isChunk = true)
    (hpid : p.parentId = some pid)
    (hcount : (coll.filter (fun pr => pr.2.parentId = some pid)).length ≤ 1000) :
    (boostOnAccess coll mid boost maxImp now).2 = min maxImp (p.importance + boost) ∧
    ∀ pr ∈ (boostOnAccess coll mid boost maxImp now).1,
      pr.2.parentId = some pid →
        pr.2.importance = min maxImp (p.importance + boost) ∧
        pr.2.accessCount = p.accessCount + 1 ∧
        pr.2.accessedAt = some now := by
  unfold boostOnAccess
  rw [hp]
  simp only []
  rw [if_pos hchunk, hpid]
  simp only [Option.getD_some]
  refine ⟨trivial, ?_⟩
  have hsibs : scrollByParent
      (updatePayloadAt coll mid
        (boostUpd (min maxImp (p.importance + boost)) (p.accessCount + 1) now))
      pid 1000 =
      (updatePayloadAt coll mid
        (boostUpd (min maxImp (p.importance + boost)) (p.accessCount + 1) now)).filter
        (fun pr => pr.2.parentId = some pid) := by
    unfold scrollByParent
    apply List.take_of_length_le
    calc ((updatePayloadAt coll mid _).filter _).length
        = (coll.filter (fun pr => pr.2.parentId = some pid)).length :=
          filter_parent_updatePayloadAt coll mid _ _ _ pid
      _ ≤ 1000 := hcount
  rw [hsibs]
  apply boost_fold_mem
  intro pr hpr hppid
  rcases List.mem_map.mp hpr with ⟨pr0, hpr0, heq⟩
  by_cases hk : pr0.1 = mid
  · rw [if_pos hk] at heq
    rw [← heq]
    exact Or.inl (BFields_boostUpd _ _ _ _)
  · rw [if_neg hk] at heq
    subst heq
    refine Or.inr ⟨hk, pr0.2, ?_⟩
    rw [Prod.mk.eta]
    exact List.mem_filter.mpr ⟨hpr, by simp [hppid]⟩


def c4wPl (i : Nat) : Payload :=
  { content := "c", createdAt := 0, updatedAt := 0, importance := 0, isChunk := true,
    parentId := some (Uuid.v4 0), chunkIndex := i, chunkCount := 2 }

def c4wColl : List (Uuid × Payload) :=
  [(chunkUuid (Uuid.v4 0) 0, c4wPl 0), (chunkUuid (Uuid.v4 0) 1, c4wPl 1)]

theorem boost_propagates_witness :
    plookup c4wColl (chunkUuid (Uuid.v4 0) 0) = some (c4wPl 0) ∧
    (c4wPl 0).isChunk = true ∧ (c4wPl 0).parentId = some (Uuid.v4 0) ∧
    (c4wColl.filter (fun pr => pr.2.parentId = some (Uuid.v4 0))).length ≤ 1000 ∧
    ((boostOnAccess c4wColl (chunkUuid (Uuid.v4 0) 0) 1 1 5).2 =
        min 1 ((c4wPl 0).importance + 1) ∧
     ∀ pr ∈ (boostOnAccess c4wColl (chunkUuid (Uuid.v4 0) 0) 1 1 5).1,
       pr.2.parentId = some (Uuid.v4 0) →
         pr.2.importance = min 1 ((c4wPl 0).importance + 1) ∧
         pr.2.accessCount = (c4wPl 0).accessCount + 1 ∧
         pr.2.accessedAt = some 5) :=
  ⟨by decide, by decide, by decide, by decide,
   boost_propagates_spec c4wColl (chunkUuid (Uuid.v4 0) 0) 1 1 5 (c4wPl 0) (Uuid.v4 0)
     (by decide) (by decide) (by decide) (by decide)⟩

/-- 1001 chunks of one memory: one more than a `scroll(limit=1000)` page. -/
def c4pl : Payload :=
  { content := "c", createdAt := 0, updatedAt := 0, importance := 0, isChunk := true,
    parentId := some (Uuid.v4 0) }

def c4CEColl : List (Uuid × Payload) :=
  (List.range 1001).map (fun i => (chunkUuid (Uuid.v4 0) i, c4pl))

theorem plookup_cons_self {α : Type} (k : Uuid) (v : α) (rest : List (Uuid × α)) :
    plookup ((k, v) :: rest) k = some v := by
  simp [plookup]

theorem c4CE_plookup : plookup c4CEColl (chunkUuid (Uuid.v4 0) 0) = some c4pl := by
  unfold c4CEColl
  rw [show (1001 : Nat) = 1000 + 1 from rfl, List.range_succ_eq_map, List.map_cons]
  exact plookup_cons_self _ _ _

theorem map_fst_updMap (k : Uuid) (f : Payload → Payload) (l : List (Uuid × Payload)) :
    (l.map (fun pr => if pr.1 = k then (pr.1, f pr.2) else pr)).map Prod.fst =
      l.map Prod.fst := by
  rw [List.map_map]
  apply List.map_congr_left
  intro pr _
  by_cases h : pr.1 = k
  · simp [h]
  · simp [h]

theorem mem_foldl_boost_of_not_key (upd : Payload → Payload) (mid : Uuid) :
    ∀ (sibs c : List (Uuid × Payload)) (k : Uuid) (v : Payload),
      (k, v) ∈ c → k ∉ sibs.map Prod.fst →
      (k, v) ∈ sibs.foldl
        (fun c sib => if sib.1 ≠ mid then updatePayloadAt c sib.1 upd else c) c := by
  intro sibs
  induction sibs with
  | nil =>
      intro c k v hk _
      simpa using hk
  | cons sib rest ih =>
      intro c k v hk hnk
      simp only [List.map_cons, List.mem_cons, not_or] at hnk
      obtain ⟨hk1, hnk'⟩ := hnk
      rw [List.foldl_cons]
      apply ih
      · by_cases hs : sib.1 ≠ mid
        · rw [if_pos hs]
          refine List.mem_map.mpr ⟨(k, v), hk, ?_⟩
          simp [hk1]
        · rw [if_neg hs]
          exact hk
      · exact hnk'

theorem c4CE_mem : (chunkUuid (Uuid.v4 0) 1000, c4pl) ∈
    (boostOnAccess c4CEColl (chunkUuid (Uuid.v4 0) 0) 1 1 5).1 := by
  unfold boostOnAccess
  rw [c4CE_plookup]
  simp only []
  rw [if_pos (show c4pl.isChunk = true from rfl)]
  simp only [show c4pl.parentId = some (Uuid.v4 0) from rfl, Option.getD_some]
  apply mem_foldl_boost_of_not_key
  · refine List.mem_map.mpr ⟨(chunkUuid (Uuid.v4 0) 1000, c4pl), ?_, ?_⟩
    · exact List.mem_map.mpr ⟨1000, List.mem_range.mpr (by norm_num), rfl⟩
    · rw [if_neg]
      intro h
      exact absurd (chunkUuid_inj _ h) (by norm_num)
  · have hfil : (updatePayloadAt c4CEColl (chunkUuid (Uuid.v4 0) 0)
        (boostUpd (min 1 (c4pl.importance + 1)) (c4pl.accessCount + 1) 5)).filter
        (fun pr => pr.2.parentId = some (Uuid.v4 0)) =
        updatePayloadAt c4CEColl (chunkUuid (Uuid.v4 0) 0)
          (boostUpd (min 1 (c4pl.importance + 1)) (c4pl.accessCount + 1) 5) := by
      apply List.filter_eq_self.mpr
      intro pr hpr
      rcases List.mem_map.mp hpr with ⟨pr0, hpr0, heq⟩
      rcases List.mem_map.mp hpr0 with ⟨i, _, heq0⟩
      rw [← heq, ← heq0]
      by_cases h : (chunkUuid (Uuid.v4 0) i, c4pl).1 = chunkUuid (Uuid.v4 0) 0
      · rw [if_pos h]
        simp [boostUpd, c4pl]
      · rw [if_neg h]
        simp [c4pl]
    unfold scrollByParent
    rw [hfil]
    unfold updatePayloadAt c4CEColl
    rw [← List.map_take, ← List.map_take, List.take_range,
        show min 1000 1001 = 1000 from rfl, map_fst_updMap, List.map_map]
    intro hmem
    rcases List.mem_map.mp hmem with ⟨i, hi, heq⟩
    have : i = 1000 := chunkUuid_inj _ heq
    rw [this] at hi
    exact absurd (List.mem_range.mp hi) (by norm_num)

/-- C4 counterexample: with 1001 chunks the sibling scroll returns only 1000
points, so the chunk left out keeps its stale importance. -/
theorem boost_propagates_counterexample :
    ¬ BoostOK c4CEColl (chunkUuid (Uuid.v4 0) 0) 1 1 5 := by
  intro h
  obtain ⟨-, hall⟩ := h c4pl c4CE_plookup rfl (Uuid.v4 0) rfl
  have hbad := (hall _ c4CE_mem rfl).1
  rw [show c4pl.importance = 0 from rfl] at hbad
  norm_num at hbad


/-! ## Consolidation (consolidation.py, `consolidate` / `_merge_memories`)

`consolidate` scrolls every point (with vectors), and for each unprocessed
representative point searches for similar points, filters the candidates and
merges them into the representative.  The search results depend on the vector
index, abstracted here as a `searchFn` parameter from the current collection
and the query vector (`store.search` at the configured limit and score
threshold); the theorems hold for every such function.  Each merge performed
is recorded in a log entry carrying the processed-id set at that moment, the
representative and the filtered candidates. -/

/-- A scrolled point with its vector (`with_vectors=True`); a missing vector
models a falsy `memory.vector`. -/
structure VPoint where
  id : Uuid
  payload : Payload
  vector : Option Nat := none
deriving DecidableEq, Repr

/-- `MemoryConsolidator._merge_memories`: merge the duplicates' tags (a Python
set union, rendered as order-preserving dedup), maximal importance and summed
access count onto the primary, then delete the duplicates.  The
`merged_content` list the code builds is never written back. -/
def mergeMemories (coll : List (Uuid × Payload)) (now : Int) (primary : VPoint)
    (duplicates : List ScoredPoint) : List (Uuid × Payload) :=
  let allTags := (duplicates.foldl (fun ts d => ts ++ d.payload.tags)
    primary.payload.tags).dedup
  let maxImp := duplicates.foldl (fun m d => max m d.payload.importance)
    primary.payload.importance
  let totalAccess := duplicates.foldl (fun a d => a + d.payload.accessCount)
    primary.payload.accessCount
  deleteByIds
    (updatePayloadAt coll primary.id (fun p =>
      { p with tags := allTags, importance := maxImp, accessCount := totalAccess,
               mergedFrom := duplicates.map (fun d => d.id), mergedAt := some now }))
    (duplicates.map (fun d => d.id))

/-- `MemoryConsolidator.consolidate`, lines 82-122: the loop over the scrolled
points, threading the processed-id set, the merged count, the store collection
and the merge log. -/
def consolidateGo (searchFn : List (Uuid × Payload) → Nat → List ScoredPoint)
    (dryRun : Bool) (now : Int) :
    List VPoint → List Uuid → Nat → List (Uuid × Payload) →
    List (List Uuid × VPoint × List ScoredPoint) →
    Nat × List (Uuid × Payload) × List (List Uuid × VPoint × List ScoredPoint)
  | [], _, merged, coll, log => (merged, coll, log)
  | m :: rest, processed, merged, coll, log =>
      if m.id ∈ processed then consolidateGo searchFn dryRun now rest processed merged coll log
      else
        match m.vector with
        | none => consolidateGo searchFn dryRun now rest processed merged coll log
        | some vec =>
            if m.payload.chunkIndex > 0 then
              consolidateGo searchFn dryRun now rest processed merged coll log
            else
              let similar := (searchFn coll vec).filter (fun s =>
                decide (s.id ∉ processed) && decide (s.id ≠ m.id) &&
                decide (s.payload.parentId.getD s.id ≠ m.payload.parentId.getD m.id) &&
                decide (s.payload.chunkIndex = 0))
              if similar.isEmpty then
                consolidateGo searchFn dryRun now rest processed merged coll log
              else
                consolidateGo searchFn dryRun now rest
                  (processed ++ m.id :: similar.map (fun s => s.id))
                  (merged + similar.length)
                  (if dryRun then coll else mergeMemories coll now m similar)
                  (log ++ [(processed, m, similar)])

/-- The candidate filter of `consolidate` as a property of one logged merge:
every merged duplicate was unprocessed, distinct from the representative, of a
different effective parent, and itself a representative. -/
def GoodMergeEntry (e : List Uuid × VPoint × List ScoredPoint) : Prop :=
  e.2.1.payload.chunkIndex = 0 ∧
  ∀ s ∈ e.2.2,
    s.id ∉ e.1 ∧ s.id ≠ e.2.1.id ∧
    s.payload.parentId.getD s.id ≠ e.2.1.payload.parentId.getD e.2.1.id ∧
    s.payload.chunkIndex = 0

theorem consolidateGo_log_inv (searchFn : List (Uuid × Payload) → Nat → List ScoredPoint)
    (dryRun : Bool) (now : Int) :
    ∀ (mems : List VPoint) (processed : List Uuid) (merged : Nat)
      (coll : List (Uuid × Payload)) (log : List (List Uuid × VPoint × List ScoredPoint)),
      (∀ e ∈ log, GoodMergeEntry e) →
      ∀ e ∈ (consolidateGo searchFn dryRun now mems processed merged coll log).2.2,
        GoodMergeEntry e := by
  intro mems
  induction mems with
  | nil =>
      intro processed merged coll log hlog e he
      simp only [consolidateGo] at he
      exact hlog e he
  | cons m rest ih =>
      intro processed merged coll log hlog e he
      simp only [consolidateGo] at he
      by_cases h1 : m.id ∈ processed
      · rw [if_pos h1] at he
        exact ih _ _ _ _ hlog e he
      · rw [if_neg h1] at he
        cases hv : m.vector with
        | none =>
            rw [hv] at he
            simp only [] at he
            exact ih _ _ _ _ hlog e he
        | some vec =>
            rw [hv] at he
            simp only [] at he
            by_cases h2 : m.payload.chunkIndex > 0
            · rw [if_pos h2] at he
              exact ih _ _ _ _ hlog e he
            · rw [if_neg h2] at he
              by_cases h3 : ((searchFn coll vec).filter (fun s =>
                  decide (s.id ∉ processed) && decide (s.id ≠ m.id) &&
                  decide (s.payload.parentId.getD s.id ≠ m.payload.parentId.getD m.id) &&
                  decide (s.payload.chunkIndex = 0))).isEmpty
              · rw [if_pos h3] at he
                exact ih _ _ _ _ hlog e he
              · rw [if_neg h3] at he
                refine ih _ _ _ _ ?_ e he
                intro e' he'
                rcases List.mem_append.mp he' with hold | hnew
                · exact hlog e' hold
                · rw [List.mem_singleton] at hnew
                  subst hnew
                  refine ⟨show m.payload.chunkIndex = 0 by omega, ?_⟩
                  intro s hs
                  have hcond := (List.mem_filter.mp hs).2
                  simp only [Bool.and_eq_true, decide_eq_true_eq] at hcond
                  exact ⟨hcond.1.1.1, hcond.1.1.2, hcond.1.2, hcond.2⟩

/-- C5.  Every merge `consolidate` performs respects the candidate filter: a
merged duplicate is unprocessed, is not the representative itself, has a
different effective parent id (`payload.parent_id ?? id`) than the
representative — so two points of one memory are never merged — and is itself
a representative (`chunk_index = 0`), and only representatives are merged
into. -/
theorem consolidate_parent_spec
    (mems : List VPoint) (searchFn : List (Uuid × Payload) → Nat → List ScoredPoint)
    (dryRun : Bool) (now : Int) (coll : List (Uuid × Payload)) :
    ∀ e ∈ (consolidateGo searchFn dryRun now mems [] 0 coll []).2.2,
      e.2.1.payload.chunkIndex = 0 ∧
      ∀ s ∈ e.2.2,
        s.id ∉ e.1 ∧ s.id ≠ e.2.1.id ∧
        s.payload.parentId.getD s.id ≠ e.2.1.payload.parentId.getD e.2.1.id ∧
        s.payload.chunkIndex = 0 := by
  intro e he
  exact consolidateGo_log_inv searchFn dryRun now mems [] 0 coll []
    (fun e' h => absurd h (List.not_mem_nil e')) e he

def c5plA : Payload :=
  { content := "a", createdAt := 0, updatedAt := 0, importance := 1,
    parentId := some (Uuid.v4 0) }

def c5plB : Payload :=
  { content := "b", createdAt := 0, updatedAt := 0, importance := 1,
    parentId := some (Uuid.v4 1) }

def c5A : VPoint := { id := Uuid.v4 0, payload := c5plA, vector := some 7 }

def c5B : ScoredPoint := { id := Uuid.v4 1, score := 1, payload := c5plB }

def c5searchFn : List (Uuid × Payload) → Nat → List ScoredPoint := fun _ _ => [c5B]

theorem consolidate_parent_witness :
    c5B.id ∉ ([] : List Uuid) ∧ c5B.id ≠ c5A.id ∧
    c5B.payload.parentId.getD c5B.id ≠ c5A.payload.parentId.getD c5A.id ∧
    c5B.payload.chunkIndex = 0 :=
  (consolidate_parent_spec [c5A] c5searchFn true 0 []
    ([], c5A, [c5B]) (by decide)).2 c5B (by decide)


/-- `MemoryConsolidator.apply_forgetting`: collect the parent ids of the
representative points that are old, unimportant and rarely accessed; when not
a dry run, delete each candidate's points by `parent_id` filter and then by
direct id. -/
def applyForgetting (coll : List (Uuid × Payload)) (cutoff : Int) (minImp : ℚ)
    (minAccess : Nat) (dryRun : Bool) : Nat × List (Uuid × Payload) :=
  let candidates := (coll.filter (fun pr =>
      !decide (pr.2.chunkIndex > 0) &&
      decide (pr.2.accessedAt.getD pr.2.createdAt < cutoff) &&
      decide (pr.2.importance < minImp) &&
      decide (pr.2.accessCount < minAccess))).map (fun pr => pr.2.parentId.getD pr.1)
  (candidates.length,
   if !dryRun && !candidates.isEmpty then
     candidates.foldl (fun c pid =>
       deleteByIds (c.filter (fun pr => !decide (pr.2.parentId = some pid))) [pid]) coll
   else coll)

/-- One scrolled point of `MemoryConsolidator.decay_importance`: skip points
without `accessed_at` or accessed since the cutoff; otherwise decay the
importance (clamped below at 0.1) and write it back when the change exceeds
0.01 and this is not a dry run. -/
def decayNewImp (rate : ℚ) (now accessed : Int) (imp : ℚ) : ℚ :=
  max (1/10) (imp * rate ^ (now - accessed).toNat)

def decayStep (rate : ℚ) (cutoff now : Int) (dryRun : Bool)
    (acc : Nat × List (Uuid × Payload)) (pr : Uuid × Payload) :
    Nat × List (Uuid × Payload) :=
  match pr.2.accessedAt with
  | none => acc
  | some accessed =>
      if accessed ≥ cutoff then acc
      else
        if !dryRun &&
            decide (abs (decayNewImp rate now accessed pr.2.importance
              - pr.2.importance) > 1/100) then
          (acc.1 + 1,
           updatePayloadAt acc.2 pr.1
             (fun p => { p with importance := decayNewImp rate now accessed pr.2.importance }))
        else acc

/-- `MemoryConsolidator.decay_importance` over the scrolled points. -/
def decayImportance (coll : List (Uuid × Payload)) (rate : ℚ) (cutoff now : Int)
    (dryRun : Bool) : Nat × List (Uuid × Payload) :=
  coll.foldl (decayStep rate cutoff now dryRun) (0, coll)

theorem consolidateGo_dry_coll (searchFn : List (Uuid × Payload) → Nat → List ScoredPoint)
    (now : Int) :
    ∀ (mems : List VPoint) (processed : List Uuid) (merged : Nat)
      (coll : List (Uuid × Payload)) (log : List (List Uuid × VPoint × List ScoredPoint)),
      (consolidateGo searchFn true now mems processed merged coll log).2.1 = coll := by
  intro mems
  induction mems with
  | nil =>
      intro processed merged coll log
      simp only [consolidateGo]
  | cons m rest ih =>
      intro processed merged coll log
      simp only [consolidateGo]
      by_cases h1 : m.id ∈ processed
      · rw [if_pos h1]
        exact ih _ _ _ _
      · rw [if_neg h1]
        cases hv : m.vector with
        | none =>
            simp only []
            exact ih _ _ _ _
        | some vec =>
            simp only []
            by_cases h2 : m.payload.chunkIndex > 0
            · rw [if_pos h2]
              exact ih _ _ _ _
            · rw [if_neg h2]
              by_cases h3 : ((searchFn coll vec).filter (fun s =>
                  decide (s.id ∉ processed) && decide (s.id ≠ m.id) &&
                  decide (s.payload.parentId.getD s.id ≠ m.payload.parentId.getD m.id) &&
                  decide (s.payload.chunkIndex = 0))).isEmpty
              · rw [if_pos h3]
                exact ih _ _ _ _
              · rw [if_neg h3, ih _ _ _ _]
                simp

theorem decayStep_dry (rate : ℚ) (cutoff now : Int) (acc : Nat × List (Uuid × Payload))
    (pr : Uuid × Payload) : decayStep rate cutoff now true acc pr = acc := by
  unfold decayStep
  cases h : pr.2.accessedAt with
  | none => rfl
  | some a =>
      simp only []
      by_cases hc : a ≥ cutoff
      · rw [if_pos hc]
      · rw [if_neg hc]
        simp

theorem decay_foldl_dry (rate : ℚ) (cutoff now : Int) :
    ∀ (l : List (Uuid × Payload)) (acc : Nat × List (Uuid × Payload)),
      l.foldl (decayStep rate cutoff now true) acc = acc := by
  intro l
  induction l with
  | nil => intro acc; rfl
  | cons p rest ih =>
      intro acc
      rw [List.foldl_cons, decayStep_dry]
      exact ih acc

/-- C6.  With `dry_run = True`, `consolidate`, `apply_forgetting` and
`decay_importance` leave the vector store untouched: the collection after the
call is the collection before it, however many merge / forget / decay
candidates were found. -/
theorem dry_run_frame
    (mems : List VPoint) (searchFn : List (Uuid × Payload) → Nat → List ScoredPoint)
    (now : Int) (coll : List (Uuid × Payload)) (cutoff : Int) (minImp : ℚ)
    (minAccess : Nat) (rate : ℚ) (dcut : Int) :
    (consolidateGo searchFn true now mems [] 0 coll []).2.1 = coll ∧
    (applyForgetting coll cutoff minImp minAccess true).2 = coll ∧
    (decayImportance coll rate dcut now true).2 = coll := by
  refine ⟨consolidateGo_dry_coll searchFn now mems [] 0 coll [], ?_, ?_⟩
  · simp [applyForgetting]
  · unfold decayImportance
    rw [decay_foldl_dry]


/-! ## Batch boost (consolidation.py, `boost_on_access_batch`, lines 400-489)

The method is annotated `-> None` but its last statement is
`return new_importance`, where `new_importance` is the loop variable last
assigned while building the update list.  The embedding returns the Python
value of that final `return`: `None` on the early empty-items return, the
last-assigned value otherwise, or a `NameError` when the statement executes
with the variable never assigned. -/

inductive PyReturn where
  | retNone : PyReturn
  | retVal : ℚ → PyReturn
  | nameError : PyReturn
deriving DecidableEq, Repr

/-- The named stores (`self.store`, keyed by collection name). -/
def storeGet (stores : List (String × List (Uuid × Payload))) (c : String) :
    List (Uuid × Payload) :=
  match stores with
  | [] => []
  | (k, v) :: rest => if k = c then v else storeGet rest c

def storeSet (stores : List (String × List (Uuid × Payload))) (c : String)
    (coll : List (Uuid × Payload)) : List (String × List (Uuid × Payload)) :=
  stores.map (fun g => if g.1 = c then (c, coll) else g)

/-- `by_collection.setdefault(collection, []).append(memory_id)` over the
items, keeping dict insertion order. -/
def groupByColl (items : List (String × Uuid)) : List (String × List Uuid) :=
  items.foldl (fun acc it =>
    if acc.any (fun g => g.1 = it.1) then
      acc.map (fun g => if g.1 = it.1 then (g.1, g.2 ++ [it.2]) else g)
    else acc ++ [(it.1, [it.2])]) []

/-- `MemoryConsolidator.boost_on_access_batch`: group items by collection,
batch-fetch, collect the parent ids, gather chunk or direct update tuples per
parent, apply the merge payloads, and perform Python's final
`return new_importance`. -/
def boostOnAccessBatch (stores : List (String × List (Uuid × Payload)))
    (items : List (String × Uuid)) (boost maxImp : ℚ) (now : Int) :
    PyReturn × List (String × List (Uuid × Payload)) :=
  if items.isEmpty then (PyReturn.retNone, stores)
  else
    let final := (groupByColl items).foldl
      (fun (acc : List (String × List (Uuid × Payload)) × Option ℚ) g =>
        let coll := storeGet acc.1 g.1
        let results := g.2.filterMap (fun m => (plookup coll m).map (fun p => (m, p)))
        if results.isEmpty then acc
        else
          let parentIds := g.2.foldl (fun pids m =>
            match plookup results m with
            | none => pids
            | some r =>
                if r.parentId.getD m ∈ pids then pids else pids ++ [r.parentId.getD m]) []
          if parentIds.isEmpty then acc
          else
            let built := parentIds.foldl
              (fun (b : List (Uuid × ℚ × Nat) × Option ℚ) pid =>
                match scrollByParent coll pid 1000 with
                | [] =>
                    match plookup coll pid with
                    | none => b
                    | some d =>
                        (b.1 ++ [(pid, min maxImp (d.importance + boost), d.accessCount + 1)],
                         some (min maxImp (d.importance + boost)))
                | c0 :: cs =>
                    (b.1 ++ (c0 :: cs).map (fun ch =>
                       (ch.1, min maxImp (c0.2.importance + boost), c0.2.accessCount + 1)),
                     some (min maxImp (c0.2.importance + boost))))
              ([], acc.2)
            (storeSet acc.1 g.1
              (built.1.foldl (fun c e =>
                updatePayloadAt c e.1 (fun p =>
                  { p with importance := e.2.1, accessCount := e.2.2,
                           accessedAt := some now })) coll),
             built.2))
      (stores, none)
    (match final.2 with
     | none => PyReturn.nameError
     | some v => PyReturn.retVal v,
     final.1)

/-- A single-point episodic memory (stored the way `MemoryManager.store`
writes non-chunked points: `parent_id` is the point's own id). -/
def c7pl : Payload :=
  { content := "m", createdAt := 0, updatedAt := 0, importance := 0,
    parentId := some (Uuid.v4 0) }

def c7coll : List (Uuid × Payload) := [(Uuid.v4 0, c7pl)]

def c7Stores : List (String × List (Uuid × Payload)) := [("episodic", c7coll)]

/-- C7.  The spec's intended behaviour — `boost_on_access_batch` returns no
value — does not match the code: on a plain one-item batch over an existing
memory the function executes `return new_importance` and yields the boosted
importance, not `None`.  The per-call `boost_on_access` does return the new
importance of the requested memory, as the spec says. -/
theorem boost_batch_return_bug :
    (boostOnAccessBatch c7Stores [("episodic", Uuid.v4 0)] 1 1 5).1 =
      PyReturn.retVal (min 1 (c7pl.importance + 1)) ∧
    PyReturn.retVal (min 1 (c7pl.importance + 1)) ≠ PyReturn.retNone ∧
    (boostOnAccess c7coll (Uuid.v4 0) 1 1 5).2 = min 1 (c7pl.importance + 1) := by
  refine ⟨rfl, by simp, rfl⟩


/-! ## Relation-type inference (graph_manager.py, `_infer_relation_type`) -/

inductive RelationType where
  | fixes | causes | opposes | supports | supersedes | partOf | derives | follows | related
deriving DecidableEq, Repr

/-- The payload fields the heuristic reads. -/
structure GraphPayload where
  content : String := ""
  tags : List String := []
  createdAt : Option Int := none
deriving DecidableEq, Repr

/-- Python `str.lower()` (character-wise lowering; the keyword checks are
ASCII). -/
def pyLower (s : String) : String := String.mk (s.data.map Char.toLower)

/-- Python `kw in content`: substring containment. -/
def pyIn (needle hay : String) : Bool := decide (List.IsInfix needle.data hay.data)

/-- `any(kw in content for kw in kws)`. -/
def hasAny (content : String) (kws : List String) : Bool :=
  kws.any (fun kw => pyIn kw content)

def fixKeywords : List String :=
  ["fix", "fixed", "soluzione", "risolto", "resolved", "solved",
   "solution", "workaround", "patch", "corrected", "remedy"]

def problemKeywords : List String :=
  ["bug", "errore", "error", "problema", "problem", "issue",
   "crash", "fail", "broken", "not working", "exception", "traceback"]

def causalSourceKeywords : List String :=
  ["decision", "decisione", "choose", "decided", "caused", "leads to",
   "results in", "because", "therefore", "consequently", "implemented"]

def resultKeywords : List String :=
  ["result", "outcome", "consequence", "effect", "impact",
   "resulted", "caused by", "due to"]

def opposeKeywords : List String :=
  ["however", "but", "although", "instead", "contrary",
   "tuttavia", "invece", "contrario", "wrong", "incorrect",
   "disagree", "conflict", "contradicts"]

def supportKeywords : List String :=
  ["confirms", "supports", "validates", "correct", "agree",
   "conferma", "supporta", "corretto", "consistent", "aligns with"]

def supersedeKeywords : List String :=
  ["update", "new version", "replace", "deprecated", "obsolete",
   "aggiornamento", "nuova versione", "sostituisce", "superseded",
   "outdated", "old version", "previous version"]

def partOfKeywords : List String :=
  ["part of", "parte di", "belongs to", "component of", "section of"]

def derivesKeywords : List String :=
  ["derived", "deriva", "based on", "extended from", "consolidated"]

/-- `GraphManager._infer_relation_type`, lines 704-838, including the
unguarded `if source_has_causal: return CAUSES` fallthrough and the
timestamp-based FOLLOWS checks (timestamps as seconds). -/
def inferRelationType (source target : GraphPayload) : RelationType :=
  let sc := source.content
  let tc := target.content
  if hasAny sc fixKeywords && hasAny tc problemKeywords then RelationType.fixes
  else if hasAny sc problemKeywords && hasAny tc fixKeywords then RelationType.fixes
  else if hasAny sc causalSourceKeywords && hasAny tc resultKeywords then RelationType.causes
  else if hasAny sc causalSourceKeywords then RelationType.causes
  else if hasAny sc opposeKeywords || hasAny tc opposeKeywords then RelationType.opposes
  else if hasAny sc supportKeywords || hasAny tc supportKeywords then RelationType.supports
  else if hasAny sc supersedeKeywords || hasAny tc supersedeKeywords then
    RelationType.supersedes
  else if hasAny sc partOfKeywords then RelationType.partOf
  else if hasAny sc derivesKeywords then RelationType.derives
  else
    match source.createdAt, target.createdAt with
    | some st, some tt =>
        if (st - tt).natAbs < 3600 && source.tags.any (fun t => target.tags.contains t) &&
            decide (st > tt) then RelationType.follows
        else if (st - tt).natAbs < 1800 && decide (st > tt) then RelationType.follows
        else RelationType.related
    | _, _ => RelationType.related

/-- C8 (amended).  When neither FIXES rule matches, the heuristic returns
CAUSES exactly when the source content contains a causal keyword — the result
keywords of the target play no role, because of the unguarded
`if source_has_causal` fallthrough. -/
theorem infer_causes_spec (source target : GraphPayload)
    (hfix1 : ¬(hasAny source.content fixKeywords = true ∧
               hasAny target.content problemKeywords = true))
    (hfix2 : ¬(hasAny source.content problemKeywords = true ∧
               hasAny target.content fixKeywords = true)) :
    inferRelationType source target = RelationType.causes ↔
      hasAny source.content causalSourceKeywords = true := by
  unfold inferRelationType
  simp only []
  rw [if_neg (by simpa [Bool.and_eq_true] using hfix1),
      if_neg (by simpa [Bool.and_eq_true] using hfix2)]
  by_cases hc : hasAny source.content causalSourceKeywords = true
  · constructor
    · intro _
      exact hc
    · intro _
      by_cases hr : hasAny target.content resultKeywords = true
      · rw [if_pos (by simp [Bool.and_eq_true, hc, hr])]
      · rw [if_neg (by simp [Bool.and_eq_true, hr]), if_pos hc]
  · rw [if_neg (by simp [Bool.and_eq_true, hc]), if_neg hc]
    constructor
    · intro h
      exfalso
      repeat' split at h
      all_goals simp_all
    · intro h
      exact absurd h hc

def c8src : GraphPayload := { content := "decision" }

def c8tgt : GraphPayload := { content := "zzz" }

/-- C8 counterexample to the claimed AND-condition: the source has a causal
keyword, the target has no result keyword, no FIXES rule matches, and the
heuristic still answers CAUSES. -/
theorem infer_causes_counterexample :
    inferRelationType c8src c8tgt = RelationType.causes ∧
    hasAny c8src.content causalSourceKeywords = true ∧
    hasAny c8tgt.content resultKeywords = false ∧
    hasAny c8src.content fixKeywords = false ∧
    hasAny c8src.content problemKeywords = false := by
  decide

theorem infer_causes_witness :
    (¬(hasAny c8src.content fixKeywords = true ∧
       hasAny c8tgt.content problemKeywords = true)) ∧
    (¬(hasAny c8src.content problemKeywords = true ∧
       hasAny c8tgt.content fixKeywords = true)) ∧
    (inferRelationType c8src c8tgt = RelationType.causes ↔
      hasAny c8src.content causalSourceKeywords = true) :=
  ⟨by decide, by decide, infer_causes_spec c8src c8tgt (by decide) (by decide)⟩


/-! ## Circuit breaker (rate_limiter.py, `CircuitBreaker`)

Time is the monotonic clock in seconds (`time.monotonic()`), as an integer.
A protected call is rendered by whether the wrapped function raises. -/

inductive CBState where
  | closed | opened | halfOpen
deriving DecidableEq, Repr

structure CBConfig where
  failureThreshold : Nat := 5
  recoveryTimeout : Int := 30
  successThreshold : Nat := 2
deriving DecidableEq, Repr

structure CB where
  state : CBState := CBState.closed
  failureCount : Nat := 0
  successCount : Nat := 0
  lastFailureTime : Int := 0
deriving DecidableEq, Repr

/-- `CircuitBreaker._check_recovery`. -/
def checkRecovery (cfg : CBConfig) (now : Int) (cb : CB) : CB :=
  if cb.state = CBState.opened ∧ now - cb.lastFailureTime ≥ cfg.recoveryTimeout then
    { cb with state := CBState.halfOpen, successCount := 0 }
  else cb

inductive CallOutcome where
  | rejected | succeeded | failedThrough
deriving DecidableEq, Repr

/-- `CircuitBreaker.call`: recovery check, open rejection, then the
success/failure bookkeeping around the protected function (`funcFails` tells
whether it raises). -/
def cbCall (cfg : CBConfig) (cb : CB) (now : Int) (funcFails : Bool) : CB × CallOutcome :=
  let cb1 := checkRecovery cfg now cb
  if cb1.state = CBState.opened then (cb1, CallOutcome.rejected)
  else if funcFails then
    let cb2 := { cb1 with failureCount := cb1.failureCount + 1, lastFailureTime := now }
    if cb2.state = CBState.halfOpen then
      ({ cb2 with state := CBState.opened }, CallOutcome.failedThrough)
    else if cb2.state = CBState.closed ∧ cb2.failureCount ≥ cfg.failureThreshold then
      ({ cb2 with state := CBState.opened }, CallOutcome.failedThrough)
    else (cb2, CallOutcome.failedThrough)
  else
    if cb1.state = CBState.halfOpen then
      if cb1.successCount + 1 ≥ cfg.successThreshold then
        ({ cb1 with successCount := cb1.successCount + 1, state := CBState.closed,
                    failureCount := 0 }, CallOutcome.succeeded)
      else ({ cb1 with successCount := cb1.successCount + 1 }, CallOutcome.succeeded)
    else if cb1.state = CBState.closed then
      ({ cb1 with failureCount := 0 }, CallOutcome.succeeded)
    else (cb1, CallOutcome.succeeded)

/-- `n` consecutive protected calls with the same outcome at time `now`. -/
def cbIter (cfg : CBConfig) (now : Int) (funcFails : Bool) : Nat → CB → CB
  | 0, cb => cb
  | n + 1, cb => cbIter cfg now funcFails n (cbCall cfg cb now funcFails).1

theorem cbCall_closed_fail (cfg : CBConfig) (cb : CB) (now : Int)
    (hs : cb.state = CBState.closed) :
    cbCall cfg cb now true =
      if cb.failureCount + 1 ≥ cfg.failureThreshold then
        ({ cb with state := CBState.opened, failureCount := cb.failureCount + 1,
                   lastFailureTime := now }, CallOutcome.failedThrough)
      else
        ({ cb with failureCount := cb.failureCount + 1, lastFailureTime := now },
         CallOutcome.failedThrough) := by
  obtain ⟨st, fc, sc, lt⟩ := cb
  have hs' : st = CBState.closed := hs
  subst hs'
  unfold cbCall checkRecovery
  rw [if_neg (show ¬(CBState.closed = CBState.opened ∧
      now - lt ≥ cfg.recoveryTimeout) from fun hand => by cases hand.1)]
  rw [if_neg (show ¬(CBState.closed = CBState.opened) from fun h => by cases h)]
  rw [if_pos (Eq.refl true)]
  rw [if_neg (show ¬(CBState.closed = CBState.halfOpen) from fun h => by cases h)]
  by_cases hth : fc + 1 ≥ cfg.failureThreshold
  · rw [if_pos ⟨rfl, hth⟩, if_pos hth]
  · rw [if_neg (fun hand => hth hand.2), if_neg hth]

theorem cbIter_fail_closed (cfg : CBConfig) (now : Int) :
    ∀ (k : Nat) (cb : CB), 1 ≤ k → cb.state = CBState.closed →
      cb.failureCount + k = cfg.failureThreshold →
      (cbIter cfg now true k cb).state = CBState.opened := by
  intro k
  induction k with
  | zero =>
      intro cb h1 _ _
      cases h1
  | succ n ih =>
      intro cb _ hs hcount
      unfold cbIter
      rw [cbCall_closed_fail cfg cb now hs]
      by_cases hn : n = 0
      · subst hn
        rw [if_pos (by omega)]
        unfold cbIter
        rfl
      · rw [if_neg (by omega)]
        refine ih _ (by omega) hs ?_
        show cb.failureCount + 1 + n = cfg.failureThreshold
        omega

theorem cbCall_halfOpen_success (cfg : CBConfig) (cb : CB) (now : Int)
    (hs : cb.state = CBState.halfOpen) :
    cbCall cfg cb now false =
      if cb.successCount + 1 ≥ cfg.successThreshold then
        ({ cb with successCount := cb.successCount + 1, state := CBState.closed,
                   failureCount := 0 }, CallOutcome.succeeded)
      else
        ({ cb with successCount := cb.successCount + 1 }, CallOutcome.succeeded) := by
  obtain ⟨st, fc, sc, lt⟩ := cb
  have hs' : st = CBState.halfOpen := hs
  subst hs'
  unfold cbCall checkRecovery
  rw [if_neg (show ¬(CBState.halfOpen = CBState.opened ∧
      now - lt ≥ cfg.recoveryTimeout) from fun hand => by cases hand.1)]
  rw [if_neg (show ¬(CBState.halfOpen = CBState.opened) from fun h => by cases h)]
  rw [if_neg (show ¬(false = true) from fun h => by cases h)]
  rw [if_pos (Eq.refl CBState.halfOpen)]

theorem cbIter_success_halfOpen (cfg : CBConfig) (now : Int) :
    ∀ (k : Nat) (cb : CB), 1 ≤ k → cb.state = CBState.halfOpen →
      cb.successCount + k = cfg.successThreshold →
      (cbIter cfg now false k cb).state = CBState.closed := by
  intro k
  induction k with
  | zero =>
      intro cb h1 _ _
      cases h1
  | succ n ih =>
      intro cb _ hs hcount
      unfold cbIter
      rw [cbCall_halfOpen_success cfg cb now hs]
      by_cases hn : n = 0
      · subst hn
        rw [if_pos (by omega)]
        unfold cbIter
        rfl
      · rw [if_neg (by omega)]
        refine ih _ (by omega) hs ?_
        show cb.successCount + 1 + n = cfg.successThreshold
        omega

/-- The circuit-breaker state machine C9 describes, for one configuration,
starting state and call time. -/
def CBSpecProp (cfg : CBConfig) (cb : CB) (now : Int) : Prop :=
  (cb.state = CBState.closed → cb.failureCount = 0 →
    (cbIter cfg now true cfg.failureThreshold cb).state = CBState.opened) ∧
  (cb.state = CBState.closed →
    cbCall cfg cb now false = ({ cb with failureCount := 0 }, CallOutcome.succeeded)) ∧
  (cb.state = CBState.opened → now - cb.lastFailureTime ≥ cfg.recoveryTimeout →
    (checkRecovery cfg now cb).state = CBState.halfOpen ∧
    ∀ f, (cbCall cfg cb now f).2 ≠ CallOutcome.rejected) ∧
  (cb.state = CBState.halfOpen → cb.successCount = 0 →
    (cbIter cfg now false cfg.successThreshold cb).state = CBState.closed) ∧
  (cb.state = CBState.halfOpen →
    (cbCall cfg cb now true).1.state = CBState.opened ∧
    (cbCall cfg cb now true).2 = CallOutcome.failedThrough) ∧
  (cb.state = CBState.opened → now - cb.lastFailureTime < cfg.recoveryTimeout →
    ∀ f, cbCall cfg cb now f = (cb, CallOutcome.rejected))

/-- C9.  The breaker follows the claimed state machine: `failure_threshold`
consecutive failures open a fresh closed circuit; a success in closed resets
the failure counter; once `recovery_timeout` has elapsed an open circuit
transitions to half-open and the call is not rejected; `success_threshold`
successes close a half-open circuit; any failure in half-open reopens it; and
before the timeout an open circuit rejects calls without touching any
state. -/
theorem circuit_breaker_spec (cfg : CBConfig) (cb : CB) (now : Int)
    (hfth : 1 ≤ cfg.failureThreshold) (hsth : 1 ≤ cfg.successThreshold) :
    CBSpecProp cfg cb now := by
  obtain ⟨st, fc, sc, lt⟩ := cb
  refine ⟨?_, ?_, ?_, ?_, ?_, ?_⟩
  · intro hs hc
    have hc' : fc = 0 := hc
    subst hc'
    exact cbIter_fail_closed cfg now cfg.failureThreshold _ hfth hs (by omega)
  · intro hs
    have hs' : st = CBState.closed := hs
    subst hs'
    unfold cbCall checkRecovery
    rw [if_neg (show ¬(CBState.closed = CBState.opened ∧
        now - lt ≥ cfg.recoveryTimeout) from fun hand => by cases hand.1)]
    rw [if_neg (show ¬(CBState.closed = CBState.opened) from fun h => by cases h)]
    rw [if_neg (show ¬(false = true) from fun h => by cases h)]
    rw [if_neg (show ¬(CBState.closed = CBState.halfOpen) from fun h => by cases h)]
    rw [if_pos (Eq.refl CBState.closed)]
  · intro hs hrec
    have hs' : st = CBState.opened := hs
    subst hs'
    have hcr : checkRecovery cfg now ⟨CBState.opened, fc, sc, lt⟩ =
        ⟨CBState.halfOpen, fc, 0, lt⟩ := by
      unfold checkRecovery
      rw [if_pos ⟨rfl, hrec⟩]
    refine ⟨by rw [hcr], ?_⟩
    intro f
    unfold cbCall
    rw [hcr]
    rw [if_neg (show ¬(CBState.halfOpen = CBState.opened) from fun h => by cases h)]
    cases f
    · rw [if_neg (show ¬(false = true) from fun h => by cases h)]
      rw [if_pos (Eq.refl CBState.halfOpen)]
      by_cases hth : 0 + 1 ≥ cfg.successThreshold
      · rw [if_pos hth]
        intro h
        cases h
      · rw [if_neg hth]
        intro h
        cases h
    · rw [if_pos (Eq.refl true)]
      rw [if_pos (Eq.refl CBState.halfOpen)]
      intro h
      cases h
  · intro hs hc
    have hc' : sc = 0 := hc
    subst hc'
    exact cbIter_success_halfOpen cfg now cfg.successThreshold _ hsth hs (by omega)
  · intro hs
    have hs' : st = CBState.halfOpen := hs
    subst hs'
    unfold cbCall checkRecovery
    rw [if_neg (show ¬(CBState.halfOpen = CBState.opened ∧
        now - lt ≥ cfg.recoveryTimeout) from fun hand => by cases hand.1)]
    rw [if_neg (show ¬(CBState.halfOpen = CBState.opened) from fun h => by cases h)]
    rw [if_pos (Eq.refl true)]
    rw [if_pos (Eq.refl CBState.halfOpen)]
    exact ⟨rfl, rfl⟩
  · intro hs hrec f
    have hs' : st = CBState.opened := hs
    subst hs'
    have hcr : checkRecovery cfg now ⟨CBState.opened, fc, sc, lt⟩ =
        ⟨CBState.opened, fc, sc, lt⟩ := by
      unfold checkRecovery
      rw [if_neg (fun hand => absurd hand.2 (not_le.mpr hrec))]
    unfold cbCall
    rw [hcr]
    rw [if_pos (show (⟨CBState.opened, fc, sc, lt⟩ : CB).state = CBState.opened from rfl)]

theorem circuit_breaker_witness :
    1 ≤ ({} : CBConfig).failureThreshold ∧ 1 ≤ ({} : CBConfig).successThreshold ∧
    CBSpecProp {} {} 100 :=
  ⟨by decide, by decide, circuit_breaker_spec {} {} 100 (by decide) (by decide)⟩

end Memoria
